import Mathlib

set_option linter.unusedVariables false
set_option maxHeartbeats 1000000

/-!
Shallow embedding of `chainerrl/agents/dqfd.py`: the dual prioritized
demonstration replay buffer (`PrioritizedDemoReplayBuffer`), its per-environment
transition-window aggregation, dual-pool sampling, priority feedback, the
update scheduler (`DemoReplayUpdater`) and the batch assembler
(`batch_experiences`).  Rewards, priorities and discount factors are rationals
so that discounted sums and probabilities are exact.  The external
weighted-sampling primitive `PrioritizedBuffer` and the parent-class helpers
(`last_n_transitions`, `weights_from_probabilities`, `priority_from_errors`)
live in `chainerrl/replay_buffer.py`, which is part of the repository but not
among the given source files; they are modelled from the spec where noted.
Randomness (`np.random.binomial`, the proportional draw) is modelled by
explicit oracle parameters ranging over the support of the distribution.
-/

/-- One environment step, the dict built by `PrioritizedDemoReplayBuffer.append`
(dqfd.py lines 113-121).  `weight` models the importance-sampling weight slot
written at sampling time (`e[0]['weight'] = w`); it is absent (`none`) when the
transition is created. -/
structure Transition where
  state : Int
  action : Int
  reward : ℚ
  next_state : Option Int
  next_action : Option Int
  is_state_terminal : Bool
  weight : Option ℚ := none
deriving DecidableEq, Repr, Inhabited

/-- An experience: an ordered window of 1..N consecutive transitions, oldest
first, the unit stored in a priority pool. -/
abbrev Experience := List Transition

/-- The sliding window of the most recent transitions of one environment. -/
abbrev Window := List Transition

/-- Positional lookup with a default element, mirroring Python list indexing. -/
def nthD {α : Type} (d : α) : List α → Nat → α
  | [], _ => d
  | a :: _, 0 => a
  | _ :: l, n + 1 => nthD d l n

/-- Modelled from the spec: `last_n_transitions[env_id]` is created by the
parent `PrioritizedReplayBuffer` (outside the given sources) as a deque with
`maxlen = num_steps`; the spec (§4.2) describes it as a bounded sliding window
of at most N transitions whose oldest element is dropped on append when full.
`dequePush` appends on the right and drops from the left down to `N` elements. -/
def dequePush (N : Nat) (w : Window) (t : Transition) : Window :=
  (w ++ [t]).drop ((w ++ [t]).length - N)

/-- Terminal-flush loop of `append` (dqfd.py lines 124-126): emit a copy of the
current window, delete its first element, repeat until the window is empty. -/
def flushAll : Window → List Experience
  | [] => []
  | t :: rest => (t :: rest) :: flushAll rest

/-- Effect of one `PrioritizedDemoReplayBuffer.append` call on one environment
window (dqfd.py lines 122-130): push the new transition into the deque; if it
is terminal, emit the window and every suffix down to length 1 and clear the
window; otherwise emit the full window exactly when its length has reached
`N = num_steps`.  Returns the emitted experiences, in emission order, and the
new window. -/
def appendWindow (N : Nat) (w : Window) (t : Transition) : List Experience × Window :=
  let w2 := dequePush N w t
  if t.is_state_terminal then (flushAll w2, [])
  else if w2.length = N then ([w2], w2)
  else ([], w2)

/-- Process a whole list of raw transitions through `appendWindow`, collecting
all emitted experiences in order, starting from window `w`. -/
def runWindow (N : Nat) : Window → List Transition → List Experience × Window
  | w, [] => ([], w)
  | w, t :: ts =>
      ((appendWindow N w t).1 ++ (runWindow N (appendWindow N w t).2 ts).1,
       (runWindow N (appendWindow N w t).2 ts).2)

/-- Effect of `PrioritizedDemoReplayBuffer.stop_current_episode` on one
environment window (dqfd.py lines 132-145): if the window is non-empty and
strictly shorter than `N`, emit it once as-is; if it is non-empty and no longer
than `N`, delete its oldest element once (duplicate avoidance); then emit every
remaining suffix down to length 1 and leave the window empty. -/
def stopEpisodeWindow (N : Nat) (w : Window) : List Experience × Window :=
  let es1 : List Experience := if 0 < w.length ∧ w.length < N then [w] else []
  let w2 := if 0 < w.length ∧ w.length ≤ N then w.tail else w
  (es1 ++ flushAll w2, [])

/-- Descending list of lengths `[m, m-1, ..., 1]`, the shape of a terminal
flush of a window of length `m`. -/
def descLengths : Nat → List Nat
  | 0 => []
  | m + 1 => (m + 1) :: descLengths m

/-- Modelled from the spec (§3, §4.1): an entry of the weighted-sampling pool
pairs a stored experience with a positive priority. -/
structure PoolEntry where
  exp : Experience
  priority : ℚ
deriving DecidableEq, Repr, Inhabited

/-- Modelled from the spec (§2, §4.1): the abstract weighted-sampling container
`PrioritizedBuffer` from `chainerrl/replay_buffer.py` (not among the given
sources).  `capacity = none` is the unbounded demonstration pool, `some c` the
bounded agent pool with oldest-first eviction.  `lastSampled` records the
indices of the most recent draw, consumed by `set_last_priority`. -/
structure PrioritizedBuffer where
  capacity : Option Nat
  data : List PoolEntry
  lastSampled : List Nat
deriving DecidableEq, Repr

/-- Modelled from the spec (§2, §3): pool append; the bounded agent pool evicts
its oldest entries at capacity, the unbounded pool just grows.  The spec does
not fix the priority a fresh entry receives, and no claim depends on it; it is
modelled as 1 (any positive value). -/
def PrioritizedBuffer.appendExp (b : PrioritizedBuffer) (e : Experience) :
    PrioritizedBuffer :=
  match b.capacity with
  | none => { b with data := b.data ++ [{ exp := e, priority := 1 }] }
  | some c =>
      let en : PoolEntry := { exp := e, priority := 1 }
      let data2 := (b.data ++ [en]).drop ((b.data.length + 1) - c)
      { b with data := data2 }

/-- Draw of `m` distinct positions out of `avail`, without replacement: at each
step the oracle `sel` picks one remaining position (reduced modulo the number
of remaining positions), which is then removed.  This determinizes the
proportional random draw of the pool; the oracle ranges over all possible
draws. -/
def drawIdxs (sel : Nat → Nat) : Nat → List Nat → List Nat
  | 0, _ => []
  | _ + 1, [] => []
  | m + 1, a :: rest =>
      let avail := a :: rest
      let j := sel m % avail.length
      nthD 0 avail j :: drawIdxs sel m (avail.eraseIdx j)

/-- Minimum of a list of rationals (0 for the empty list). -/
def minQ : List ℚ → ℚ
  | [] => 0
  | a :: l => l.foldr min a

/-- Result of one pool draw: the sampled entries, their probabilities, the
minimum probability over the pool, and the pool with the drawn indices
recorded for the next `set_last_priority`. -/
structure DrawResult where
  entries : List PoolEntry
  probabilities : List ℚ
  min_prob : ℚ
  pool : PrioritizedBuffer
deriving Repr

/-- Modelled from the spec (§4.1): `PrioritizedBuffer.sample(m)` draws `m`
entries without replacement with probability proportional to priority and
returns them with their probabilities and the smallest probability in the
pool; the drawn batch is remembered for `set_last_priority`.  The random draw
is determinized by the oracle `sel`. -/
def PrioritizedBuffer.sampleDraw (b : PrioritizedBuffer) (sel : Nat → Nat)
    (m : Nat) : DrawResult :=
  let idxs := drawIdxs sel m (List.range b.data.length)
  let entries := idxs.map (fun i => nthD default b.data i)
  let total := (b.data.map PoolEntry.priority).sum
  { entries := entries
    probabilities := entries.map (fun en => en.priority / total)
    min_prob := minQ (b.data.map PoolEntry.priority) / total
    pool := { b with lastSampled := idxs } }

/-- Update one entry's priority in place (position `i`), leaving the list
unchanged when the position is out of range. -/
def setPriorityAt (data : List PoolEntry) (i : Nat) (p : ℚ) : List PoolEntry :=
  match data.get? i with
  | some en => data.set i { en with priority := p }
  | none => data

/-- Modelled from the spec (§4.1): `set_last_priority(values)` assigns the
given priorities to the most recently sampled batch, in draw order. -/
def PrioritizedBuffer.set_last_priority (b : PrioritizedBuffer) (ps : List ℚ) :
    PrioritizedBuffer :=
  let data2 := (b.lastSampled.zip ps).foldl (fun d ip => setPriorityAt d ip.1 ip.2) b.data
  { b with data := data2 }

/-- The dual replay buffer `PrioritizedDemoReplayBuffer` (dqfd.py lines
29-148): the standard PER parameters stored by the parent constructor, the
bounded agent pool `memory`, the unbounded demonstration pool `memory_demo`,
and the per-environment transition windows. -/
structure PrioritizedDemoReplayBuffer where
  alpha : ℚ
  beta0 : ℚ
  betasteps : ℚ
  eps : ℚ
  normalize_by_max : Bool
  error_min : ℚ
  error_max : ℚ
  num_steps : Nat
  memory : PrioritizedBuffer
  memory_demo : PrioritizedBuffer
  last_n_transitions : Nat → Window

/-- `PrioritizedDemoReplayBuffer.__init__` (dqfd.py lines 41-52): the call to
the parent constructor passes the literal values `0.6, 0.4, 2e5, 0.01, True,
0, 1, 1` rather than the incoming arguments (the parent, outside the given
sources, is modelled from the spec as storing the standard PER parameters it
receives); the two pools are then rebuilt as `PrioritizedBuffer(capacity)` and
`PrioritizedBuffer(None)`. -/
def PrioritizedDemoReplayBuffer.init (capacity : Option Nat)
    (alpha beta0 betasteps eps : ℚ) (normalize_by_max : Bool)
    (error_min error_max : ℚ) (num_steps : Nat) :
    PrioritizedDemoReplayBuffer :=
  { alpha := 0.6, beta0 := 0.4, betasteps := 200000, eps := 0.01,
    normalize_by_max := true, error_min := 0, error_max := 1, num_steps := 1,
    memory := { capacity := capacity, data := [], lastSampled := [] },
    memory_demo := { capacity := none, data := [], lastSampled := [] },
    last_n_transitions := fun _ => [] }

/-- Weight attachment `e[0]['weight'] = w` (dqfd.py lines 68-69): write the
importance weight into the first transition of a sampled experience. -/
def setWeight (e : Experience) (w : ℚ) : Experience :=
  match e with
  | [] => []
  | t :: rest => { t with weight := some w } :: rest

/-- Erase the weight slot of the first transition; used to compare sampled
experiences with stored ones independently of the transient weight. -/
def clearWeight (e : Experience) : Experience :=
  match e with
  | [] => []
  | t :: rest => { t with weight := none } :: rest

/-- `PrioritizedDemoReplayBuffer.sample_from_memory` (dqfd.py lines 54-70):
select the pool by name, fail (`UnderflowError`) when more samples are
requested than the pool holds, return `[]` for `m = 0` without drawing, and
otherwise draw `m` entries, attach the importance weight of each drawn entry
to its first transition, and record the draw in the pool.  The parent helper
`weights_from_probabilities` (outside the given sources; its value involves a
real-valued annealed exponent) is abstracted as the parameter `wfn` taking a
probability and the pool's minimum probability. -/
def PrioritizedDemoReplayBuffer.sample_from_memory
    (buf : PrioritizedDemoReplayBuffer) (memory_str : String) (m : Nat)
    (sel : Nat → Nat) (wfn : ℚ → ℚ → ℚ) :
    Except String (List Experience × PrioritizedDemoReplayBuffer) :=
  let memory := if memory_str = "agent" then buf.memory else buf.memory_demo
  if m ≤ memory.data.length then
    if m = 0 then .ok ([], buf)
    else
      let dr := memory.sampleDraw sel m
      let weights := dr.probabilities.map (fun p => wfn p dr.min_prob)
      let sampled := (dr.entries.zip weights).map
        (fun ew => setWeight ew.1.exp ew.2)
      .ok (sampled,
        if memory_str = "agent" then { buf with memory := dr.pool }
        else { buf with memory_demo := dr.pool })
  else .error "UnderflowError"

/-- Demo-only path of `PrioritizedDemoReplayBuffer.sample` (dqfd.py lines
79-81): all `n` samples are drawn from the demonstration pool. -/
def PrioritizedDemoReplayBuffer.sampleDemoOnly
    (buf : PrioritizedDemoReplayBuffer) (n : Nat) (selD : Nat → Nat)
    (wfn : ℚ → ℚ → ℚ) :
    Except String (List Experience × PrioritizedDemoReplayBuffer) :=
  buf.sample_from_memory "demo" n selD wfn

/-- Dual path of `PrioritizedDemoReplayBuffer.sample` (dqfd.py lines 83-95):
compute the agent-mass fraction, draw the agent count from
`Binomial(n, psample_agent)` (determinized by the oracle `kdraw`, which ranges
over the support `0..n`), clamp it by the agent pool size, and draw the two
sub-batches.  The two lists are returned as a pair, never merged. -/
def PrioritizedDemoReplayBuffer.sampleDual
    (buf : PrioritizedDemoReplayBuffer) (n kdraw : Nat)
    (selA selD : Nat → Nat) (wfn : ℚ → ℚ → ℚ) :
    Except String ((List Experience × List Experience) ×
      PrioritizedDemoReplayBuffer) := do
  let _psum_agent : ℚ := (buf.memory.data.map PoolEntry.priority).sum
  let _psum_demo : ℚ := (buf.memory_demo.data.map PoolEntry.priority).sum
  let _psample_agent : ℚ := _psum_agent / (_psum_agent + _psum_demo)
  let nsample_agent := min kdraw buf.memory.data.length
  let nsample_demo := n - nsample_agent
  let (sampled_agent, buf2) ← buf.sample_from_memory "agent" nsample_agent selA wfn
  let (sampled_demo, buf3) ← buf2.sample_from_memory "demo" nsample_demo selD wfn
  .ok ((sampled_agent, sampled_demo), buf3)

/-- Shape of a `sample` result: a single demo list in demo-only mode, a pair
of provenance-separated lists otherwise. -/
inductive SampleResult where
  | demoOnly (sampled_demo : List Experience)
  | dual (sampled_agent sampled_demo : List Experience)
deriving DecidableEq, Repr

/-- `PrioritizedDemoReplayBuffer.sample` (dqfd.py lines 72-95), dispatching on
`demo_only`. -/
def PrioritizedDemoReplayBuffer.sample (buf : PrioritizedDemoReplayBuffer)
    (n : Nat) (demo_only : Bool) (kdraw : Nat) (selA selD : Nat → Nat)
    (wfn : ℚ → ℚ → ℚ) :
    Except String (SampleResult × PrioritizedDemoReplayBuffer) :=
  if demo_only then do
    let (sd, buf2) ← buf.sampleDemoOnly n selD wfn
    .ok (.demoOnly sd, buf2)
  else do
    let (p, buf2) ← buf.sampleDual n kdraw selA selD wfn
    .ok (.dual p.1 p.2, buf2)

/-- Modelled from the spec (§3): `priority_from_errors` of the parent class
(outside the given sources) transforms a raw error into the positive priority
`(|error| + eps)^alpha`; the real-valued power `(·)^alpha` is abstracted as
the parameter `powA`. -/
def priority_from_errors (powA : ℚ → ℚ) (eps : ℚ) (errors : List ℚ) : List ℚ :=
  errors.map (fun e => powA (|e| + eps))

/-- `PrioritizedDemoReplayBuffer.update_errors` (dqfd.py lines 97-103): feed
each non-empty error list back to its pool's `set_last_priority`; empty lists
are no-ops. -/
def PrioritizedDemoReplayBuffer.update_errors
    (buf : PrioritizedDemoReplayBuffer) (powA : ℚ → ℚ)
    (errors_agent errors_demo : List ℚ) : PrioritizedDemoReplayBuffer :=
  let buf1 :=
    if 0 < errors_demo.length then
      let md := buf.memory_demo.set_last_priority (priority_from_errors powA buf.eps errors_demo)
      { buf with memory_demo := md }
    else buf
  if 0 < errors_agent.length then
    let ma := buf1.memory.set_last_priority (priority_from_errors powA buf1.eps errors_agent)
    { buf1 with memory := ma }
  else buf1

/-- `PrioritizedDemoReplayBuffer.append` (dqfd.py lines 105-130): build the
transition dict, route it through the window of `env_id`, and push every
emitted experience into the selected pool (`memory_demo` when `demo`,
`memory` otherwise). -/
def PrioritizedDemoReplayBuffer.append (buf : PrioritizedDemoReplayBuffer)
    (state action : Int) (reward : ℚ) (next_state next_action : Option Int)
    (is_state_terminal : Bool) (env_id : Nat) (demo : Bool) :
    PrioritizedDemoReplayBuffer :=
  let experience : Transition :=
    { state := state, action := action, reward := reward,
      next_state := next_state, next_action := next_action,
      is_state_terminal := is_state_terminal, weight := none }
  let r := appendWindow buf.num_steps (buf.last_n_transitions env_id) experience
  let windows := fun i => if i = env_id then r.2 else buf.last_n_transitions i
  if demo then
    { buf with
      memory_demo := r.1.foldl PrioritizedBuffer.appendExp buf.memory_demo,
      last_n_transitions := windows }
  else
    { buf with
      memory := r.1.foldl PrioritizedBuffer.appendExp buf.memory,
      last_n_transitions := windows }

/-- `PrioritizedDemoReplayBuffer.stop_current_episode` (dqfd.py lines
132-145): flush the window of `env_id` through `stopEpisodeWindow` into the
selected pool. -/
def PrioritizedDemoReplayBuffer.stop_current_episode
    (buf : PrioritizedDemoReplayBuffer) (demo : Bool) (env_id : Nat) :
    PrioritizedDemoReplayBuffer :=
  let r := stopEpisodeWindow buf.num_steps (buf.last_n_transitions env_id)
  let windows := fun i => if i = env_id then r.2 else buf.last_n_transitions i
  if demo = false then
    { buf with
      memory := r.1.foldl PrioritizedBuffer.appendExp buf.memory,
      last_n_transitions := windows }
  else
    { buf with
      memory_demo := r.1.foldl PrioritizedBuffer.appendExp buf.memory_demo,
      last_n_transitions := windows }

/-- `PrioritizedDemoReplayBuffer.__len__` (dqfd.py lines 147-148): total
number of stored experiences across both pools. -/
def PrioritizedDemoReplayBuffer.len (buf : PrioritizedDemoReplayBuffer) : Nat :=
  buf.memory.data.length + buf.memory_demo.data.length

/-- `DemoReplayUpdater` configuration (dqfd.py lines 167-179). -/
structure DemoReplayUpdater where
  batchsize : Nat
  episodic_update : Bool
  n_times_update : Nat
  replay_start_size : Nat
  update_interval : Nat
deriving DecidableEq, Repr

/-- `DemoReplayUpdater.__init__` (dqfd.py lines 167-179): the construction
fails (`assert batchsize <= replay_start_size`, the spec's
ConfigurationError) when the minibatch size exceeds the replay-start
threshold. -/
def DemoReplayUpdater.init (batchsize : Nat) (episodic_update : Bool)
    (n_times_update replay_start_size update_interval : Nat) :
    Except String DemoReplayUpdater :=
  if batchsize ≤ replay_start_size then
    .ok { batchsize := batchsize, episodic_update := episodic_update,
          n_times_update := n_times_update,
          replay_start_size := replay_start_size,
          update_interval := update_interval }
  else .error "ConfigurationError"

/-- Body of the update loop of `update_if_necessary` (dqfd.py lines 195-207):
run `count` consecutive updates; each iteration with `episodic_update` set
raises NotImplementedError, and otherwise draws a fresh dual sample of
`batchsize` (its own oracle entries) and passes the two lists to the update
function.  The list of argument pairs handed to `update_func` is returned. -/
def runUpdates (u : DemoReplayUpdater) (ks : Nat → Nat)
    (selA selD : Nat → Nat → Nat) (wfn : ℚ → ℚ → ℚ) :
    PrioritizedDemoReplayBuffer → Nat →
    Except String (List (List Experience × List Experience) ×
      PrioritizedDemoReplayBuffer)
  | buf, 0 => .ok ([], buf)
  | buf, i + 1 =>
      if u.episodic_update then .error "NotImplementedError"
      else do
        let (p, buf2) ← buf.sampleDual u.batchsize (ks i) (selA i) (selD i) wfn
        let (rest, buf3) ← runUpdates u ks selA selD wfn buf2 i
        .ok (p :: rest, buf3)

/-- `DemoReplayUpdater.update_if_necessary` (dqfd.py lines 181-207): the gates
are checked in order — total buffer length below `replay_start_size`, the
episodic episode-count gate (`n_episodes` is a parent-class attribute outside
the given sources, passed in as a parameter), and the step counter not
divisible by `update_interval` — each a skip, not an error; otherwise
`n_times_update` consecutive updates fire, each drawing a fresh sample. -/
def DemoReplayUpdater.update_if_necessary (u : DemoReplayUpdater)
    (buf : PrioritizedDemoReplayBuffer) (iteration : Nat) (n_episodes : Nat)
    (ks : Nat → Nat) (selA selD : Nat → Nat → Nat) (wfn : ℚ → ℚ → ℚ) :
    Except String (List (List Experience × List Experience) ×
      PrioritizedDemoReplayBuffer) :=
  if buf.len < u.replay_start_size then .ok ([], buf)
  else if u.episodic_update ∧ n_episodes < u.batchsize then .ok ([], buf)
  else if iteration % u.update_interval ≠ 0 then .ok ([], buf)
  else runUpdates u ks selA selD wfn buf u.n_times_update

/-- The batched arrays produced by `batch_experiences` (dqfd.py lines
222-272).  `next_action` is `none` when the key is omitted for the batch. -/
structure BatchExp where
  state : List Int
  action : List Int
  reward_nstep : List ℚ
  next_state_nstep : List (Option Int)
  reward_1step : List ℚ
  next_state_1step : List (Option Int)
  is_state_terminal : List Bool
  discount : List ℚ
  next_action : Option (List (Option Int))
deriving DecidableEq, Repr

/-- `batch_experiences` (dqfd.py lines 222-272): vectorize a list of
experiences of mixed lengths.  `batch_states` applies the preprocessing
function `phi` elementwise (the external pure collaborator, abstracted as a
function on states). -/
def batch_experiences (experiences : List Experience) (phi : Int → Int)
    (gamma : ℚ) : BatchExp :=
  let nstepR : Experience → ℚ := fun e =>
    ((List.range e.length).map (fun i => gamma ^ i * (nthD default e i).reward)).sum
  { state := experiences.map (fun e => phi (nthD default e 0).state)
    action := experiences.map (fun e => (nthD default e 0).action)
    reward_nstep := experiences.map nstepR
    next_state_nstep := experiences.map (fun e => ((e.getLastD default).next_state).map phi)
    reward_1step := experiences.map (fun e => (nthD default e 0).reward)
    next_state_1step := experiences.map (fun e => ((nthD default e 0).next_state).map phi)
    is_state_terminal := experiences.map (fun e => e.any (fun t => t.is_state_terminal))
    discount := experiences.map (fun e => gamma ^ e.length)
    next_action :=
      if experiences.all (fun e => ((e.getLastD default).next_action).isSome)
      then some (experiences.map (fun e => (e.getLastD default).next_action))
      else none }

/-- Divisor of the supervised-loss normalization in `DQfD.update` (dqfd.py
lines 430-431): when `batch_accumulator` is `"mean"` the supervised loss is
divided by `len(experiences_demo)`, with no zero guard; otherwise no division
is performed (`none`). -/
def supervisedDivisor (batch_accumulator : String)
    (experiences_demo : List Experience) : Option Nat :=
  if batch_accumulator = "mean" then some experiences_demo.length else none

/-- Extract the demo-origin list from a dual `sample` result. -/
def demoPart (r : Except String (SampleResult × PrioritizedDemoReplayBuffer)) :
    Option (List Experience) :=
  match r with
  | .ok (.dual _ sd, _) => some sd
  | _ => none

/-- Concrete transition used by the witnesses and counterexample fixtures. -/
def wT (term : Bool) (r : ℚ) : Transition :=
  { state := 0, action := 0, reward := r, next_state := some 1,
    next_action := some 0, is_state_terminal := term }

/-- Trivial draw oracle used by the witnesses. -/
def wSel : Nat → Nat := fun _ => 0

/-- Trivial per-iteration draw oracle used by the witnesses. -/
def wSel2 : Nat → Nat → Nat := fun _ _ => 0

/-- Trivial weight function used by the witnesses. -/
def wWfn : ℚ → ℚ → ℚ := fun _ _ => 0

/-- Pool entry fixture holding one single-transition experience. -/
def wEntry (r : ℚ) : PoolEntry := { exp := [wT false r], priority := 1 }

/-- Buffer fixture with the given pool contents and last-sampled index lists;
the scalar parameters are the ones `PrioritizedDemoReplayBuffer.init` pins. -/
def mkBuf (agentData demoData : List PoolEntry) (aLast dLast : List Nat) :
    PrioritizedDemoReplayBuffer :=
  { alpha := 0.6, beta0 := 0.4, betasteps := 200000, eps := 0.01,
    normalize_by_max := true, error_min := 0, error_max := 1, num_steps := 1,
    memory := { capacity := none, data := agentData, lastSampled := aLast },
    memory_demo := { capacity := none, data := demoData, lastSampled := dLast },
    last_n_transitions := fun _ => [] }

/-- Buffer whose demo pool has exactly four entries (agent pool empty). -/
def wBufC5 : PrioritizedDemoReplayBuffer :=
  mkBuf [] [wEntry 1, wEntry 2, wEntry 3, wEntry 4] [] []

/-- Buffer with two agent entries and one demo entry: enough agent mass for a
binomial draw of 2 out of 2 to leave the demo sub-batch empty. -/
def wBufC6 : PrioritizedDemoReplayBuffer :=
  mkBuf [wEntry 1, wEntry 2] [wEntry 3] [] []

/-- Buffer with non-trivial last-sampled batches in both pools. -/
def wBufC7 : PrioritizedDemoReplayBuffer :=
  mkBuf [wEntry 1, wEntry 2] [wEntry 3, wEntry 4] [0] [1]

/-- Buffer with one agent entry and three demo entries. -/
def wBufC10 : PrioritizedDemoReplayBuffer :=
  mkBuf [wEntry 1] [wEntry 2, wEntry 3, wEntry 4] [] []

/-! Basic list lemmas used by the development. -/

theorem nthD_mem {α : Type} (d : α) :
    ∀ (l : List α) (i : Nat), i < l.length → nthD d l i ∈ l := by
  intro l
  induction l with
  | nil => intro i h; simp at h
  | cons a l ih =>
    intro i h
    cases i with
    | zero => simp [nthD]
    | succ n =>
      simp only [nthD]
      exact List.mem_cons_of_mem a (ih n (by simp at h; omega))

theorem nthD_map {α β : Type} (f : α → β) (d : β) (d' : α) :
    ∀ (l : List α) (i : Nat), i < l.length →
      nthD d (l.map f) i = f (nthD d' l i) := by
  intro l
  induction l with
  | nil => intro i h; simp at h
  | cons a l ih =>
    intro i h
    cases i with
    | zero => simp [nthD]
    | succ n =>
      simp only [List.map_cons, nthD]
      exact ih n (by simp at h; omega)

theorem drop_append_le {α : Type} :
    ∀ (l1 l2 : List α) (n : Nat), n ≤ l1.length →
      (l1 ++ l2).drop n = l1.drop n ++ l2 := by
  intro l1
  induction l1 with
  | nil => intro l2 n h; simp at h; simp [h]
  | cons a l ih =>
    intro l2 n h
    cases n with
    | zero => simp
    | succ m => simpa using ih l2 m (by simp at h; omega)

theorem length_eraseIdx_lt {α : Type} :
    ∀ (l : List α) (i : Nat), i < l.length →
      (l.eraseIdx i).length = l.length - 1 := by
  intro l
  induction l with
  | nil => intro i h; simp at h
  | cons a l ih =>
    intro i h
    cases i with
    | zero => simp [List.eraseIdx]
    | succ n =>
      simp only [List.eraseIdx, List.length_cons]
      rw [ih n (by simp at h; omega)]
      simp at h
      omega

theorem mem_eraseIdx {α : Type} :
    ∀ (l : List α) (i : Nat) (x : α), x ∈ l.eraseIdx i → x ∈ l := by
  intro l
  induction l with
  | nil => intro i x h; simp [List.eraseIdx] at h
  | cons a l ih =>
    intro i x h
    cases i with
    | zero => exact List.mem_cons_of_mem a (by simpa [List.eraseIdx] using h)
    | succ n =>
      simp only [List.eraseIdx] at h
      rcases List.mem_cons.mp h with h | h
      · exact h ▸ List.mem_cons_self a l
      · exact List.mem_cons_of_mem a (ih n x h)

theorem nthD_cons_eraseIdx_perm {α : Type} (d : α) :
    ∀ (l : List α) (i : Nat), i < l.length →
      List.Perm (nthD d l i :: l.eraseIdx i) l := by
  intro l
  induction l with
  | nil => intro i h; simp at h
  | cons a l ih =>
    intro i h
    cases i with
    | zero => simp [nthD, List.eraseIdx]
    | succ n =>
      simp only [nthD, List.eraseIdx]
      exact ((List.Perm.swap a (nthD d l n) (l.eraseIdx n)).trans
        (List.Perm.cons a (ih n (by simp at h; omega))))

theorem mem_set_or {α : Type} :
    ∀ (l : List α) (i : Nat) (b x : α), x ∈ l.set i b → x ∈ l ∨ x = b := by
  intro l
  induction l with
  | nil => intro i b x h; simp at h
  | cons a l ih =>
    intro i b x h
    cases i with
    | zero =>
      rcases List.mem_cons.mp h with h | h
      · exact Or.inr h
      · exact Or.inl (List.mem_cons_of_mem a h)
    | succ n =>
      rcases List.mem_cons.mp h with h | h
      · exact Or.inl (h ▸ List.mem_cons_self a l)
      · rcases ih n b x h with h | h
        · exact Or.inl (List.mem_cons_of_mem a h)
        · exact Or.inr h

theorem drawIdxs_length (sel : Nat → Nat) :
    ∀ (m : Nat) (avail : List Nat), m ≤ avail.length →
      (drawIdxs sel m avail).length = m := by
  intro m
  induction m with
  | zero => intro avail h; simp [drawIdxs]
  | succ k ih =>
    intro avail h
    cases avail with
    | nil => simp at h
    | cons a rest =>
      have hj : sel k % (rest.length + 1) < (a :: rest).length := by
        have := Nat.mod_lt (sel k) (Nat.succ_pos rest.length)
        simpa using this
      have hlen : k ≤ ((a :: rest).eraseIdx (sel k % (rest.length + 1))).length := by
        rw [length_eraseIdx_lt _ _ hj]
        simp at h ⊢
        omega
      simp only [drawIdxs, List.length_cons, ih _ hlen]

theorem drawIdxs_mem (sel : Nat → Nat) :
    ∀ (m : Nat) (avail : List Nat) (x : Nat),
      x ∈ drawIdxs sel m avail → x ∈ avail := by
  intro m
  induction m with
  | zero => intro avail x h; simp [drawIdxs] at h
  | succ k ih =>
    intro avail x h
    cases avail with
    | nil => simp [drawIdxs] at h
    | cons a rest =>
      simp only [drawIdxs] at h
      rcases List.mem_cons.mp h with h | h
      · exact h ▸ nthD_mem 0 (a :: rest) _ (Nat.mod_lt _ (by simp))
      · exact mem_eraseIdx _ _ _ (ih _ x h)

theorem drawIdxs_perm (sel : Nat → Nat) :
    ∀ (m : Nat) (avail : List Nat), m = avail.length →
      List.Perm (drawIdxs sel m avail) avail := by
  intro m
  induction m with
  | zero =>
    intro avail h
    cases avail with
    | nil => simp [drawIdxs]
    | cons a rest => simp at h
  | succ k ih =>
    intro avail h
    cases avail with
    | nil => simp at h
    | cons a rest =>
      simp only [drawIdxs]
      have hj : sel k % (a :: rest).length < (a :: rest).length :=
        Nat.mod_lt _ (by simp)
      refine List.Perm.trans (List.Perm.cons _ (ih _ ?_))
        (nthD_cons_eraseIdx_perm 0 (a :: rest) _ hj)
      rw [length_eraseIdx_lt _ _ hj]
      simp at h ⊢
      omega

theorem map_nthD_range {α : Type} (d : α) :
    ∀ (l : List α), (List.range l.length).map (fun i => nthD d l i) = l := by
  intro l
  induction l with
  | nil => simp
  | cons a l ih =>
    rw [List.length_cons, List.range_succ_eq_map]
    simp only [List.map_cons, List.map_map]
    have h2 : (fun i => nthD d (a :: l) i) ∘ Nat.succ = fun i => nthD d l i := by
      funext i; simp [Function.comp, nthD]
    rw [h2]
    simp [nthD, ih]

theorem sum_map_range_eq (f : Nat → ℚ) :
    ∀ (n : Nat), ((List.range n).map f).sum = ∑ i ∈ Finset.range n, f i := by
  intro n
  induction n with
  | zero => simp
  | succ k ih => rw [List.range_succ, Finset.sum_range_succ]; simp [ih]

theorem descLengths_length : ∀ (m : Nat), (descLengths m).length = m := by
  intro m
  induction m with
  | zero => simp [descLengths]
  | succ k ih => simp [descLengths, ih]

theorem flushAll_map_length :
    ∀ (w : Window), (flushAll w).map List.length = descLengths w.length := by
  intro w
  induction w with
  | nil => simp [flushAll, descLengths]
  | cons t rest ih => simp [flushAll, descLengths, ih]

theorem flushAll_self_mem : ∀ (w : Window), w ≠ [] → w ∈ flushAll w := by
  intro w h
  cases w with
  | nil => exact absurd rfl h
  | cons t rest => simp [flushAll]

theorem flushAll_cover (w : Window) (x : Transition) (hx : x ∈ w) :
    ∃ e ∈ flushAll w, x ∈ e := by
  refine ⟨w, flushAll_self_mem w ?_, hx⟩
  rintro rfl
  simp at hx

theorem dequePush_eq (N : Nat) (hN : 1 ≤ N) (w : Window) (t : Transition) :
    dequePush N w t = w.drop (w.length + 1 - N) ++ [t] := by
  unfold dequePush
  rw [List.length_append, List.length_singleton]
  exact drop_append_le w [t] _ (by omega)

theorem dequePush_length (N : Nat) (hN : 1 ≤ N) (w : Window) (t : Transition) :
    (dequePush N w t).length = min (w.length + 1) N := by
  rw [dequePush_eq N hN w t]
  simp [List.length_drop]
  omega

theorem dequePush_self_mem (N : Nat) (hN : 1 ≤ N) (w : Window) (t : Transition) :
    t ∈ dequePush N w t := by
  rw [dequePush_eq N hN w t]
  simp

theorem dequePush_of_lt (N : Nat) (hN : 1 ≤ N) (w : Window) (t : Transition)
    (h : w.length < N) : dequePush N w t = w ++ [t] := by
  rw [dequePush_eq N hN w t]
  have h0 : w.length + 1 - N = 0 := by omega
  rw [h0, List.drop_zero]

theorem dequePush_mem_of_lt (N : Nat) (hN : 1 ≤ N) (w : Window)
    (t x : Transition) (h : w.length < N) (hx : x ∈ w) :
    x ∈ dequePush N w t := by
  rw [dequePush_of_lt N hN w t h]
  exact List.mem_append_left _ hx

theorem appendWindow_nonterm_full (N : Nat) (w : Window) (t : Transition)
    (htf : t.is_state_terminal = false) (hfull : (dequePush N w t).length = N) :
    appendWindow N w t = ([dequePush N w t], dequePush N w t) := by
  simp [appendWindow, htf, hfull]

theorem appendWindow_nonterm_small (N : Nat) (w : Window) (t : Transition)
    (htf : t.is_state_terminal = false) (hs : (dequePush N w t).length ≠ N) :
    appendWindow N w t = ([], dequePush N w t) := by
  simp [appendWindow, htf, hs]

theorem appendWindow_term (N : Nat) (w : Window) (t : Transition)
    (ht : t.is_state_terminal = true) :
    appendWindow N w t = (flushAll (dequePush N w t), []) := by
  simp [appendWindow, ht]

theorem runWindow_nil (N : Nat) (w : Window) : runWindow N w [] = ([], w) := rfl

theorem runWindow_cons (N : Nat) (w : Window) (t : Transition)
    (ts : List Transition) :
    runWindow N w (t :: ts) =
      ((appendWindow N w t).1 ++ (runWindow N (appendWindow N w t).2 ts).1,
       (runWindow N (appendWindow N w t).2 ts).2) := rfl

theorem runWindow_append (N : Nat) :
    ∀ (l1 l2 : List Transition) (w : Window),
      runWindow N w (l1 ++ l2) =
        ((runWindow N w l1).1 ++ (runWindow N (runWindow N w l1).2 l2).1,
         (runWindow N (runWindow N w l1).2 l2).2) := by
  intro l1
  induction l1 with
  | nil => intro l2 w; simp [runWindow_nil]
  | cons t ts ih =>
    intro l2 w
    rw [List.cons_append, runWindow_cons, ih, runWindow_cons]
    simp [List.append_assoc]

theorem runWindow_nonterm_shape (N : Nat) (hN : 1 ≤ N) :
    ∀ (ts : List Transition), (∀ t ∈ ts, t.is_state_terminal = false) →
    ∀ (w : Window), w.length ≤ N →
      (runWindow N w ts).1.map List.length =
        List.replicate ((ts.length + 1) - max 1 (N - w.length)) N ∧
      (runWindow N w ts).2.length = min (w.length + ts.length) N := by
  intro ts
  induction ts with
  | nil =>
    intro _ w hw
    refine ⟨?_, ?_⟩
    · have h0 : (List.length ([] : List Transition) + 1) - max 1 (N - w.length) = 0 := by
        simp only [List.length_nil]
        omega
      rw [runWindow_nil, h0]
      simp
    · rw [runWindow_nil]
      simp
      omega
  | cons t ts ih =>
    intro hts w hw
    have htf : t.is_state_terminal = false := hts t (List.mem_cons_self t ts)
    have hts' : ∀ x ∈ ts, x.is_state_terminal = false :=
      fun x hx => hts x (List.mem_cons_of_mem t hx)
    have hlen2 : (dequePush N w t).length = min (w.length + 1) N :=
      dequePush_length N hN w t
    have hw2 : (dequePush N w t).length ≤ N := by omega
    by_cases hfull : (dequePush N w t).length = N
    · have h1 := ih hts' (dequePush N w t) hw2
      have hm : N ≤ w.length + 1 := by omega
      refine ⟨?_, ?_⟩
      · rw [runWindow_cons, appendWindow_nonterm_full N w t htf hfull]
        simp only [List.map_append, List.map_cons, List.map_nil, h1.1]
        have hc1 : (ts.length + 1) - max 1 (N - (dequePush N w t).length)
            = ts.length := by omega
        have hc2 : ((t :: ts).length + 1) - max 1 (N - w.length)
            = ts.length + 1 := by simp; omega
        rw [hc1, hc2, hfull, List.replicate_succ]
        simp
      · rw [runWindow_cons, appendWindow_nonterm_full N w t htf hfull]
        rw [h1.2]
        simp
        omega
    · have h1 := ih hts' (dequePush N w t) hw2
      have hm : w.length + 1 < N := by omega
      refine ⟨?_, ?_⟩
      · rw [runWindow_cons, appendWindow_nonterm_small N w t htf hfull]
        simp only [List.nil_append, h1.1]
        have hc : (ts.length + 1) - max 1 (N - (dequePush N w t).length)
            = ((t :: ts).length + 1) - max 1 (N - w.length) := by simp; omega
        rw [hc]
      · rw [runWindow_cons, appendWindow_nonterm_small N w t htf hfull]
        rw [h1.2]
        simp
        omega

theorem runWindow_nonterm_cover (N : Nat) (hN : 1 ≤ N) :
    ∀ (ts : List Transition), (∀ t ∈ ts, t.is_state_terminal = false) →
    ∀ (w : Window), w.length ≤ N →
      (∀ x, (x ∈ w ∨ x ∈ ts) →
        (x ∈ (runWindow N w ts).2 ∨ (∃ e ∈ (runWindow N w ts).1, x ∈ e) ∨
         (w.length = N ∧ x ∈ w))) ∧
      ((runWindow N w ts).2.length = N →
        ((runWindow N w ts).2 ∈ (runWindow N w ts).1 ∨
         ((runWindow N w ts).2 = w ∧ w.length = N))) := by
  intro ts
  induction ts with
  | nil =>
    intro _ w hw
    refine ⟨?_, ?_⟩
    · intro x hx
      rw [runWindow_nil]
      rcases hx with hx | hx
      · exact Or.inl hx
      · simp at hx
    · intro hfull
      rw [runWindow_nil] at hfull ⊢
      exact Or.inr ⟨rfl, hfull⟩
  | cons t ts ih =>
    intro hts w hw
    have htf : t.is_state_terminal = false := hts t (List.mem_cons_self t ts)
    have hts' : ∀ x ∈ ts, x.is_state_terminal = false :=
      fun x hx => hts x (List.mem_cons_of_mem t hx)
    have hlen2 : (dequePush N w t).length = min (w.length + 1) N :=
      dequePush_length N hN w t
    have hw2 : (dequePush N w t).length ≤ N := by omega
    have ihc := ih hts' (dequePush N w t) hw2
    by_cases hfull : (dequePush N w t).length = N
    · refine ⟨?_, ?_⟩
      · intro x hx
        rw [runWindow_cons, appendWindow_nonterm_full N w t htf hfull]
        have hx2 : x ∈ dequePush N w t ∨ x ∈ ts ∨ (x ∈ w ∧ w.length = N) := by
          rcases hx with hx | hx
          · by_cases hwN : w.length = N
            · exact Or.inr (Or.inr ⟨hx, hwN⟩)
            · exact Or.inl (dequePush_mem_of_lt N hN w t x (by omega) hx)
          · rcases List.mem_cons.mp hx with hx | hx
            · exact Or.inl (hx ▸ dequePush_self_mem N hN w t)
            · exact Or.inr (Or.inl hx)
        rcases hx2 with hx2 | hx2 | hx2
        · rcases (ihc.1 x (Or.inl hx2)) with h | h | h
          · exact Or.inl h
          · rcases h with ⟨e, he, hxe⟩
            exact Or.inr (Or.inl ⟨e, List.mem_append_right _ he, hxe⟩)
          · exact Or.inr (Or.inl
              ⟨dequePush N w t, List.mem_append_left _ (by simp), h.2⟩)
        · rcases (ihc.1 x (Or.inr hx2)) with h | h | h
          · exact Or.inl h
          · rcases h with ⟨e, he, hxe⟩
            exact Or.inr (Or.inl ⟨e, List.mem_append_right _ he, hxe⟩)
          · exact Or.inr (Or.inl
              ⟨dequePush N w t, List.mem_append_left _ (by simp), h.2⟩)
        · exact Or.inr (Or.inr ⟨hx2.2, hx2.1⟩)
      · intro hfull2
        rw [runWindow_cons, appendWindow_nonterm_full N w t htf hfull] at hfull2 ⊢
        rcases ihc.2 hfull2 with h | h
        · exact Or.inl (List.mem_append_right _ h)
        · exact Or.inl (List.mem_append_left _ (by rw [h.1]; simp))
    · have hlt : w.length + 1 < N := by omega
      refine ⟨?_, ?_⟩
      · intro x hx
        rw [runWindow_cons, appendWindow_nonterm_small N w t htf hfull]
        have hx2 : x ∈ dequePush N w t ∨ x ∈ ts := by
          rcases hx with hx | hx
          · exact Or.inl (dequePush_mem_of_lt N hN w t x (by omega) hx)
          · rcases List.mem_cons.mp hx with hx | hx
            · exact Or.inl (hx ▸ dequePush_self_mem N hN w t)
            · exact Or.inr hx
        rcases (ihc.1 x hx2) with h | h | h
        · exact Or.inl h
        · rcases h with ⟨e, he, hxe⟩
          exact Or.inr (Or.inl ⟨e, by simpa using he, hxe⟩)
        · exact absurd h.1 hfull
      · intro hfull2
        rw [runWindow_cons, appendWindow_nonterm_small N w t htf hfull] at hfull2 ⊢
        rcases ihc.2 hfull2 with h | h
        · exact Or.inl (by simpa using h)
        · exact absurd h.2 hfull

theorem replicate_append_cons {α : Type} (a : α) :
    ∀ (n : Nat) (l : List α),
      List.replicate n a ++ (a :: l) = List.replicate (n + 1) a ++ l := by
  intro n
  induction n with
  | zero => intro l; simp
  | succ k ih =>
    intro l
    simp only [List.replicate_succ, List.cons_append, ih]

theorem flushAll_length (w : Window) : (flushAll w).length = w.length := by
  have h := congrArg List.length (flushAll_map_length w)
  simpa [descLengths_length] using h

/-- C1: for every environment episode fed through
`PrioritizedDemoReplayBuffer.append` (one call per raw transition, the last
one terminal), starting from an empty window: the window ends empty; exactly
`L` experiences are emitted in total; when `L ≤ N` their lengths are
`L, L-1, ..., 1`; when `L > N` they are `L - N + 1` full-length-`N`
experiences followed by `N - 1` decreasing-length ones; every raw transition
of the episode occurs in at least one emitted experience (none silently
dropped); and `append` routes all emissions into the selected pool only, the
other pool being untouched. -/
theorem C1_append_episode_emissions (N : Nat) (hN : 1 ≤ N)
    (ts : List Transition) (tl : Transition)
    (hts : ∀ t ∈ ts, t.is_state_terminal = false)
    (htl : tl.is_state_terminal = true)
    (L : Nat) (hL : L = ts.length + 1)
    (buf0 : PrioritizedDemoReplayBuffer) (s0 a0 : Int) (r0 : ℚ)
    (ns0 na0 : Option Int) (term0 : Bool) (env0 : Nat) :
    (runWindow N [] (ts ++ [tl])).2 = [] ∧
    (runWindow N [] (ts ++ [tl])).1.length = L ∧
    (L ≤ N → (runWindow N [] (ts ++ [tl])).1.map List.length = descLengths L) ∧
    (N < L → (runWindow N [] (ts ++ [tl])).1.map List.length =
      List.replicate (L - N + 1) N ++ descLengths (N - 1)) ∧
    (∀ x ∈ ts ++ [tl], ∃ e ∈ (runWindow N [] (ts ++ [tl])).1, x ∈ e) ∧
    (buf0.append s0 a0 r0 ns0 na0 term0 env0 true).memory = buf0.memory ∧
    (buf0.append s0 a0 r0 ns0 na0 term0 env0 false).memory_demo = buf0.memory_demo := by
  have hshape := runWindow_nonterm_shape N hN ts hts [] (by simp)
  have hcover := runWindow_nonterm_cover N hN ts hts [] (by simp)
  have hwf : (runWindow N [] ts).2.length = min ts.length N := by
    have := hshape.2
    simpa using this
  have hterm : runWindow N (runWindow N [] ts).2 [tl] =
      (flushAll (dequePush N (runWindow N [] ts).2 tl), []) := by
    rw [runWindow_cons, appendWindow_term N _ tl htl, runWindow_nil]
    simp
  have hsplit := runWindow_append N ts [tl] []
  have hfin : (runWindow N [] (ts ++ [tl])).2 = [] := by
    rw [hsplit, hterm]
  have hes : (runWindow N [] (ts ++ [tl])).1 =
      (runWindow N [] ts).1 ++ flushAll (dequePush N (runWindow N [] ts).2 tl) := by
    rw [hsplit, hterm]
  have hw3 : (dequePush N (runWindow N [] ts).2 tl).length = min L N := by
    rw [dequePush_length N hN _ tl, hwf]
    omega
  have hmap : (runWindow N [] (ts ++ [tl])).1.map List.length =
      List.replicate (L - N) N ++ descLengths (min L N) := by
    rw [hes, List.map_append, flushAll_map_length, hw3, hshape.1]
    have hc : (ts.length + 1) - max 1 (N - List.length ([] : List Transition))
        = L - N := by simp only [List.length_nil]; omega
    rw [hc]
  refine ⟨hfin, ?_, ?_, ?_, ?_, ?_, ?_⟩
  · have hlen := congrArg List.length hmap
    simp only [List.length_map, List.length_append, List.length_replicate,
      descLengths_length] at hlen
    omega
  · intro hLN
    rw [hmap]
    have h1 : L - N = 0 := by omega
    have h2 : min L N = L := by omega
    rw [h1, h2]
    simp
  · intro hNL
    rw [hmap]
    have h2 : min L N = N := by omega
    rw [h2]
    have h3 : N = (N - 1) + 1 := by omega
    rw [h3, descLengths]
    have h4 : N - 1 + 1 = N := by omega
    rw [h4]
    have h5 := replicate_append_cons N (L - N) (descLengths (N - 1))
    rw [h5]
  · intro x hx
    rw [hes]
    rcases List.mem_append.mp hx with hx | hx
    · rcases hcover.1 x (Or.inr hx) with h | h | h
      · by_cases hfull : (runWindow N [] ts).2.length = N
        · rcases hcover.2 hfull with h2 | h2
          · exact ⟨(runWindow N [] ts).2, List.mem_append_left _ h2, h⟩
          · exact absurd (h2.1 ▸ hfull) (by simp; omega)
        · have hx3 : x ∈ dequePush N (runWindow N [] ts).2 tl :=
            dequePush_mem_of_lt N hN _ tl x (by omega) h
          rcases flushAll_cover _ x hx3 with ⟨e, he, hxe⟩
          exact ⟨e, List.mem_append_right _ he, hxe⟩
      · rcases h with ⟨e, he, hxe⟩
        exact ⟨e, List.mem_append_left _ he, hxe⟩
      · exact absurd h.1 (by simp; omega)
    · have hxtl : x = tl := by simpa using hx
      have hx3 : x ∈ dequePush N (runWindow N [] ts).2 tl := by
        rw [hxtl]
        exact dequePush_self_mem N hN _ tl
      rcases flushAll_cover _ x hx3 with ⟨e, he, hxe⟩
      exact ⟨e, List.mem_append_right _ he, hxe⟩
  · rfl
  · rfl

/-- Witness for C1 at a concrete episode: `N = 2`, two non-terminal steps
followed by a terminal one (`L = 3 > N`): emissions have lengths `[2, 2, 1]`
and the window ends empty. -/
theorem C1_append_episode_emissions_witness :
    (runWindow 2 [] ([wT false 1, wT false 2] ++ [wT true 3])).2 = [] ∧
    (runWindow 2 [] ([wT false 1, wT false 2] ++ [wT true 3])).1.length = 3 ∧
    (runWindow 2 [] ([wT false 1, wT false 2] ++ [wT true 3])).1.map List.length =
      List.replicate 2 2 ++ descLengths 1 := by
  have h := C1_append_episode_emissions 2 (by decide) [wT false 1, wT false 2]
    (wT true 3) (by decide) (by decide) 3 rfl (mkBuf [] [] [] []) 0 0 0 none
    none false 0
  exact ⟨h.1, h.2.1, h.2.2.2.1 (by decide)⟩

/-- C2: `stop_current_episode` on a per-environment window of length `k ≤ N`
leaves the window empty and: emits nothing for `k = 0`; for `0 < k < N` first
emits the window as-is, then drops the oldest element and emits every
remaining suffix, `k` experiences of lengths `k, k-1, ..., 1` in total; for
`k = N` it skips the as-is emission, drops the oldest element once and emits
the `N - 1` suffixes of lengths `N-1, ..., 1`. -/
theorem C2_stop_current_episode (N : Nat) (hN : 1 ≤ N) (w : Window)
    (hw : w.length ≤ N) :
    (stopEpisodeWindow N w).2 = [] ∧
    (w.length = 0 → (stopEpisodeWindow N w).1 = []) ∧
    (0 < w.length → w.length < N →
      (stopEpisodeWindow N w).1 = w :: flushAll w.tail ∧
      (stopEpisodeWindow N w).1.map List.length = descLengths w.length ∧
      (stopEpisodeWindow N w).1.length = w.length) ∧
    (w.length = N →
      (stopEpisodeWindow N w).1 = flushAll w.tail ∧
      (stopEpisodeWindow N w).1.map List.length = descLengths (N - 1) ∧
      (stopEpisodeWindow N w).1.length = N - 1) := by
  refine ⟨rfl, ?_, ?_, ?_⟩
  · intro h0
    have hw0 : w = [] := List.length_eq_zero.mp h0
    subst hw0
    simp [stopEpisodeWindow, flushAll]
  · intro hpos hlt
    have hc1 : (0 < w.length ∧ w.length < N) := ⟨hpos, hlt⟩
    have hc2 : (0 < w.length ∧ w.length ≤ N) := ⟨hpos, by omega⟩
    have he : (stopEpisodeWindow N w).1 = w :: flushAll w.tail := by
      simp only [stopEpisodeWindow, if_pos hc1, if_pos hc2]
      simp
    refine ⟨he, ?_, ?_⟩
    · rw [he]
      simp only [List.map_cons, flushAll_map_length]
      have htl : w.tail.length = w.length - 1 := by
        cases w with
        | nil => simp at hpos
        | cons a l => simp
      rw [htl]
      have hd : w.length = (w.length - 1) + 1 := by omega
      rw [hd, descLengths]
      have hd2 : w.length - 1 + 1 - 1 = w.length - 1 := by omega
      rw [hd2]
    · rw [he]
      simp [flushAll_length]
      cases w with
      | nil => simp at hpos
      | cons a l => simp
  · intro hN2
    have hpos : 0 < w.length := by omega
    have hc1 : ¬(0 < w.length ∧ w.length < N) := by omega
    have hc2 : (0 < w.length ∧ w.length ≤ N) := ⟨hpos, by omega⟩
    have he : (stopEpisodeWindow N w).1 = flushAll w.tail := by
      simp only [stopEpisodeWindow, if_neg hc1, if_pos hc2]
      simp
    have htl : w.tail.length = N - 1 := by
      cases w with
      | nil => simp at hpos
      | cons a l => simp at hN2 ⊢; omega
    refine ⟨he, ?_, ?_⟩
    · rw [he, flushAll_map_length, htl]
    · rw [he, flushAll_length, htl]

/-- Witness for C2 on concrete windows: with `N = 3`, a window of length 2
yields emissions of lengths `[2, 1]`, a full window of length 3 yields
`[2, 1]`, and the empty window yields none; all end with an empty window. -/
theorem C2_stop_current_episode_witness :
    (stopEpisodeWindow 3 [wT false 1, wT false 2]).2 = [] ∧
    (stopEpisodeWindow 3 [wT false 1, wT false 2]).1.map List.length = descLengths 2 ∧
    (stopEpisodeWindow 3 [wT false 1, wT false 2, wT false 3]).1.map List.length =
      descLengths 2 ∧
    (stopEpisodeWindow 3 []).1 = [] := by
  have h2 := C2_stop_current_episode 3 (by decide) [wT false 1, wT false 2]
    (by decide)
  have h3 := C2_stop_current_episode 3 (by decide)
    [wT false 1, wT false 2, wT false 3] (by decide)
  have h0 := C2_stop_current_episode 3 (by decide) ([] : Window) (by decide)
  exact ⟨h2.1, (h2.2.2.1 (by decide) (by decide)).2.1,
    (h3.2.2.2 (by decide)).2.1, h0.2.1 (by decide)⟩

/-- C3: `PrioritizedDemoReplayBuffer.__init__` ignores every supplied
prioritization/windowing argument — the resulting buffer always carries the
literals `alpha = 0.6`, `beta0 = 0.4`, `betasteps = 2e5`, `eps = 0.01`,
`normalize_by_max = true`, `error_min = 0`, `error_max = 1`, `num_steps = 1` —
and only `capacity` has an effect: it becomes the agent pool's bound while
the demo pool is unbounded (`none`); a bounded pool never grows past its
capacity on append (evicting the oldest), an unbounded pool always grows. -/
theorem C3_init_fixed_literals (capacity : Option Nat)
    (alpha beta0 betasteps eps : ℚ) (normalize_by_max : Bool)
    (error_min error_max : ℚ) (num_steps : Nat)
    (alpha2 beta02 betasteps2 eps2 : ℚ) (normalize_by_max2 : Bool)
    (error_min2 error_max2 : ℚ) (num_steps2 : Nat)
    (pb : PrioritizedBuffer) (c : Nat) (e : Experience) :
    (PrioritizedDemoReplayBuffer.init capacity alpha beta0 betasteps eps
        normalize_by_max error_min error_max num_steps =
      PrioritizedDemoReplayBuffer.init capacity alpha2 beta02 betasteps2 eps2
        normalize_by_max2 error_min2 error_max2 num_steps2) ∧
    (PrioritizedDemoReplayBuffer.init capacity alpha beta0 betasteps eps
        normalize_by_max error_min error_max num_steps).alpha = 0.6 ∧
    (PrioritizedDemoReplayBuffer.init capacity alpha beta0 betasteps eps
        normalize_by_max error_min error_max num_steps).beta0 = 0.4 ∧
    (PrioritizedDemoReplayBuffer.init capacity alpha beta0 betasteps eps
        normalize_by_max error_min error_max num_steps).betasteps = 200000 ∧
    (PrioritizedDemoReplayBuffer.init capacity alpha beta0 betasteps eps
        normalize_by_max error_min error_max num_steps).eps = 0.01 ∧
    (PrioritizedDemoReplayBuffer.init capacity alpha beta0 betasteps eps
        normalize_by_max error_min error_max num_steps).normalize_by_max = true ∧
    (PrioritizedDemoReplayBuffer.init capacity alpha beta0 betasteps eps
        normalize_by_max error_min error_max num_steps).error_min = 0 ∧
    (PrioritizedDemoReplayBuffer.init capacity alpha beta0 betasteps eps
        normalize_by_max error_min error_max num_steps).error_max = 1 ∧
    (PrioritizedDemoReplayBuffer.init capacity alpha beta0 betasteps eps
        normalize_by_max error_min error_max num_steps).num_steps = 1 ∧
    (PrioritizedDemoReplayBuffer.init capacity alpha beta0 betasteps eps
        normalize_by_max error_min error_max num_steps).memory.capacity = capacity ∧
    (PrioritizedDemoReplayBuffer.init capacity alpha beta0 betasteps eps
        normalize_by_max error_min error_max num_steps).memory_demo.capacity = none ∧
    (pb.capacity = some c →
      (pb.appendExp e).data.length = min (pb.data.length + 1) c) ∧
    (pb.capacity = none →
      (pb.appendExp e).data.length = pb.data.length + 1) := by
  obtain ⟨cap, data, ls⟩ := pb
  refine ⟨rfl, rfl, rfl, rfl, rfl, rfl, rfl, rfl, rfl, rfl, rfl, ?_, ?_⟩
  · intro hc
    simp only at hc
    subst hc
    simp [PrioritizedBuffer.appendExp, List.length_drop]
    omega
  · intro hc
    simp only at hc
    subst hc
    simp [PrioritizedBuffer.appendExp]

/-- Witness for C3: two different argument tuples produce the same buffer; a
pool of capacity 2 holding 2 entries stays at 2 entries after an append. -/
theorem C3_init_fixed_literals_witness :
    (PrioritizedDemoReplayBuffer.init (some 7) 9 9 9 9 false 9 9 5 =
      PrioritizedDemoReplayBuffer.init (some 7) 1 2 3 4 true 5 6 7) ∧
    (({ capacity := some 2, data := [wEntry 1, wEntry 2], lastSampled := [] }
        : PrioritizedBuffer).appendExp [wT false 3]).data.length = 2 := by
  have h := C3_init_fixed_literals (some 7) 9 9 9 9 false 9 9 5 1 2 3 4 true 5 6 7
    ({ capacity := some 2, data := [wEntry 1, wEntry 2], lastSampled := [] }
      : PrioritizedBuffer) 2 [wT false 3]
  refine ⟨h.1, ?_⟩
  have h2 := h.2.2.2.2.2.2.2.2.2.2.2.1 rfl
  simpa using h2

/-- C8: `batch_experiences` over experiences of mixed lengths in `[1, N]`
computes, per experience `i`: `reward_nstep[i]` as the discounted sum
`Σ_{j<len} γ^j r_j` over the full window, `discount[i] = γ^len`,
`is_state_terminal[i]` true iff some transition of the window is terminal;
and it includes `next_action` exactly when every experience's last transition
has a defined next action. -/
theorem C8_batch_experiences (experiences : List Experience) (phi : Int → Int)
    (gamma : ℚ) (N : Nat)
    (hlen : ∀ e ∈ experiences, 1 ≤ e.length ∧ e.length ≤ N) :
    (∀ i, i < experiences.length →
      nthD 0 (batch_experiences experiences phi gamma).reward_nstep i =
        ∑ j ∈ Finset.range (nthD [] experiences i).length,
          gamma ^ j * (nthD default (nthD [] experiences i) j).reward) ∧
    (∀ i, i < experiences.length →
      nthD 0 (batch_experiences experiences phi gamma).discount i =
        gamma ^ (nthD [] experiences i).length) ∧
    (∀ i, i < experiences.length →
      (nthD false (batch_experiences experiences phi gamma).is_state_terminal i
          = true ↔
        ∃ t ∈ nthD [] experiences i, t.is_state_terminal = true)) ∧
    ((batch_experiences experiences phi gamma).next_action.isSome = true ↔
      ∀ e ∈ experiences, ((e.getLastD default).next_action).isSome = true) := by
  refine ⟨?_, ?_, ?_, ?_⟩
  · intro i hi
    have hproj : (batch_experiences experiences phi gamma).reward_nstep =
        experiences.map (fun e => ((List.range e.length).map
          (fun j => gamma ^ j * (nthD default e j).reward)).sum) := rfl
    rw [hproj, nthD_map (fun e => ((List.range e.length).map
      (fun j => gamma ^ j * (nthD default e j).reward)).sum) 0
      ([] : Experience) experiences i hi]
    exact sum_map_range_eq _ _
  · intro i hi
    have hproj : (batch_experiences experiences phi gamma).discount =
        experiences.map (fun e => gamma ^ e.length) := rfl
    rw [hproj, nthD_map (fun e : Experience => gamma ^ e.length) 0
      ([] : Experience) experiences i hi]
  · intro i hi
    have hproj : (batch_experiences experiences phi gamma).is_state_terminal =
        experiences.map (fun e => e.any (fun t => t.is_state_terminal)) := rfl
    rw [hproj, nthD_map (fun e : Experience => e.any
      (fun t => t.is_state_terminal)) false ([] : Experience) experiences i hi]
    simp [List.any_eq_true]
  · have hproj : (batch_experiences experiences phi gamma).next_action =
        (if experiences.all (fun e => ((e.getLastD default).next_action).isSome)
         then some (experiences.map (fun e => (e.getLastD default).next_action))
         else none) := rfl
    rw [hproj]
    by_cases hall : experiences.all
        (fun e => ((e.getLastD default).next_action).isSome) = true
    · rw [if_pos hall]
      simp only [Option.isSome_some, true_iff]
      rw [List.all_eq_true] at hall
      exact fun e he => hall e he
    · rw [if_neg hall]
      simp only [Option.isSome_none]
      constructor
      · intro hfalse
        simp at hfalse
      · intro hforall
        exact absurd (List.all_eq_true.mpr (fun e he => hforall e he)) hall

/-- Witness for C8 at a concrete batch: two experiences of lengths 1 and 2
with `γ = 1/2`: the n-step reward of the second is `2 + (1/2)·3`, its
discount `(1/2)^2`, its terminal flag true, and `next_action` is present. -/
theorem C8_batch_experiences_witness :
    nthD 0 (batch_experiences [[wT false 1], [wT false 2, wT true 3]]
        (fun s => s) (1/2)).reward_nstep 1 =
      ∑ j ∈ Finset.range 2, (1/2 : ℚ) ^ j *
        (nthD default [wT false 2, wT true 3] j).reward ∧
    nthD 0 (batch_experiences [[wT false 1], [wT false 2, wT true 3]]
        (fun s => s) (1/2)).discount 1 = (1/2 : ℚ) ^ 2 ∧
    (batch_experiences [[wT false 1], [wT false 2, wT true 3]]
        (fun s => s) (1/2)).next_action.isSome = true := by
  have h := C8_batch_experiences [[wT false 1], [wT false 2, wT true 3]]
    (fun s => s) (1/2) 2 (by decide)
  exact ⟨h.1 1 (by decide), h.2.1 1 (by decide), h.2.2.2.mpr (by decide)⟩

/-- C9: for an experience window of length exactly 1, the assembled batch
entry has `reward_1step = reward_nstep` and
`next_state_1step = next_state_nstep`. -/
theorem C9_single_length_roundtrip (experiences : List Experience)
    (phi : Int → Int) (gamma : ℚ) (i : Nat) (hi : i < experiences.length)
    (h1 : (nthD [] experiences i).length = 1) :
    nthD 0 (batch_experiences experiences phi gamma).reward_1step i =
      nthD 0 (batch_experiences experiences phi gamma).reward_nstep i ∧
    nthD none (batch_experiences experiences phi gamma).next_state_1step i =
      nthD none (batch_experiences experiences phi gamma).next_state_nstep i := by
  obtain ⟨t, ht⟩ : ∃ t, nthD [] experiences i = [t] := by
    cases he : nthD [] experiences i with
    | nil => rw [he] at h1; simp at h1
    | cons a l =>
      rw [he] at h1
      simp only [List.length_cons] at h1
      have hl : l = [] := List.length_eq_zero.mp (by omega)
      exact ⟨a, by rw [hl]⟩
  constructor
  · have hp1 : (batch_experiences experiences phi gamma).reward_1step =
        experiences.map (fun e => (nthD default e 0).reward) := rfl
    have hp2 : (batch_experiences experiences phi gamma).reward_nstep =
        experiences.map (fun e => ((List.range e.length).map
          (fun j => gamma ^ j * (nthD default e j).reward)).sum) := rfl
    rw [hp1, hp2, nthD_map (fun e : Experience => (nthD default e 0).reward) 0
      ([] : Experience) experiences i hi,
      nthD_map (fun e : Experience => ((List.range e.length).map
        (fun j => gamma ^ j * (nthD default e j).reward)).sum) 0
      ([] : Experience) experiences i hi, ht]
    simp [nthD, List.range_succ]
  · have hp1 : (batch_experiences experiences phi gamma).next_state_1step =
        experiences.map (fun e => ((nthD default e 0).next_state).map phi) := rfl
    have hp2 : (batch_experiences experiences phi gamma).next_state_nstep =
        experiences.map (fun e => ((e.getLastD default).next_state).map phi) := rfl
    rw [hp1, hp2, nthD_map (fun e : Experience =>
        ((nthD default e 0).next_state).map phi) none
      ([] : Experience) experiences i hi,
      nthD_map (fun e : Experience =>
        ((e.getLastD default).next_state).map phi) none
      ([] : Experience) experiences i hi, ht]
    simp [nthD, List.getLastD]

/-- Witness for C9 at a concrete length-1 experience. -/
theorem C9_single_length_roundtrip_witness :
    nthD 0 (batch_experiences [[wT true 5]] (fun s => s) (1/2)).reward_1step 0 =
      nthD 0 (batch_experiences [[wT true 5]] (fun s => s) (1/2)).reward_nstep 0 ∧
    nthD none (batch_experiences [[wT true 5]] (fun s => s) (1/2)).next_state_1step 0 =
      nthD none (batch_experiences [[wT true 5]] (fun s => s) (1/2)).next_state_nstep 0 :=
  C9_single_length_roundtrip [[wT true 5]] (fun s => s) (1/2) 0 (by decide)
    (by decide)

theorem clearWeight_setWeight (e : Experience) (w : ℚ) :
    clearWeight (setWeight e w) = clearWeight e := by
  cases e <;> rfl

theorem sampleDraw_entries_eq (memory : PrioritizedBuffer) (sel : Nat → Nat)
    (m : Nat) :
    (memory.sampleDraw sel m).entries =
      (drawIdxs sel m (List.range memory.data.length)).map
        (fun i => nthD default memory.data i) := rfl

theorem sampleDraw_entries_length (memory : PrioritizedBuffer)
    (sel : Nat → Nat) (m : Nat) (hm : m ≤ memory.data.length) :
    (memory.sampleDraw sel m).entries.length = m := by
  rw [sampleDraw_entries_eq, List.length_map]
  exact drawIdxs_length sel m _ (by rw [List.length_range]; exact hm)

theorem sampleDraw_probabilities_length (memory : PrioritizedBuffer)
    (sel : Nat → Nat) (m : Nat) :
    (memory.sampleDraw sel m).probabilities.length =
      (memory.sampleDraw sel m).entries.length := by
  simp [PrioritizedBuffer.sampleDraw]

theorem sampleDraw_entries_mem (memory : PrioritizedBuffer) (sel : Nat → Nat)
    (m : Nat) :
    ∀ en ∈ (memory.sampleDraw sel m).entries, en ∈ memory.data := by
  intro en hen
  rw [sampleDraw_entries_eq] at hen
  rcases List.mem_map.mp hen with ⟨i, hi, hieq⟩
  have hir : i ∈ List.range memory.data.length := drawIdxs_mem sel m _ i hi
  exact hieq ▸ nthD_mem default memory.data i (List.mem_range.mp hir)

theorem sampleDraw_entries_perm (memory : PrioritizedBuffer) (sel : Nat → Nat)
    (m : Nat) (h : m = memory.data.length) :
    List.Perm (memory.sampleDraw sel m).entries memory.data := by
  rw [sampleDraw_entries_eq]
  have h1 : List.Perm (drawIdxs sel m (List.range memory.data.length))
      (List.range memory.data.length) :=
    drawIdxs_perm sel m _ (by rw [List.length_range]; exact h)
  have h2 := h1.map (fun i => nthD default memory.data i)
  rw [map_nthD_range] at h2
  exact h2

theorem sampleDraw_pool_data (memory : PrioritizedBuffer) (sel : Nat → Nat)
    (m : Nat) : (memory.sampleDraw sel m).pool.data = memory.data := rfl

theorem sfm_eq_zero (buf : PrioritizedDemoReplayBuffer) (s : String)
    (sel : Nat → Nat) (wfn : ℚ → ℚ → ℚ) :
    buf.sample_from_memory s 0 sel wfn = .ok ([], buf) := by
  simp [PrioritizedDemoReplayBuffer.sample_from_memory]

theorem sfm_eq_agent (buf : PrioritizedDemoReplayBuffer) (m : Nat)
    (sel : Nat → Nat) (wfn : ℚ → ℚ → ℚ) (hm : m ≤ buf.memory.data.length)
    (hz : m ≠ 0) :
    buf.sample_from_memory "agent" m sel wfn =
      .ok ((((buf.memory.sampleDraw sel m).entries.zip
          ((buf.memory.sampleDraw sel m).probabilities.map
            (fun p => wfn p (buf.memory.sampleDraw sel m).min_prob))).map
          (fun ew => setWeight ew.1.exp ew.2)),
        { buf with memory := (buf.memory.sampleDraw sel m).pool }) := by
  simp [PrioritizedDemoReplayBuffer.sample_from_memory, hm, hz]

theorem sfm_eq_other (buf : PrioritizedDemoReplayBuffer) (s : String)
    (hs : ¬(s = "agent")) (m : Nat) (sel : Nat → Nat) (wfn : ℚ → ℚ → ℚ)
    (hm : m ≤ buf.memory_demo.data.length) (hz : m ≠ 0) :
    buf.sample_from_memory s m sel wfn =
      .ok ((((buf.memory_demo.sampleDraw sel m).entries.zip
          ((buf.memory_demo.sampleDraw sel m).probabilities.map
            (fun p => wfn p (buf.memory_demo.sampleDraw sel m).min_prob))).map
          (fun ew => setWeight ew.1.exp ew.2)),
        { buf with memory_demo := (buf.memory_demo.sampleDraw sel m).pool }) := by
  simp [PrioritizedDemoReplayBuffer.sample_from_memory, hs, hm, hz]

theorem sfm_eq_underflow (buf : PrioritizedDemoReplayBuffer) (s : String)
    (m : Nat) (sel : Nat → Nat) (wfn : ℚ → ℚ → ℚ)
    (hm : (if s = "agent" then buf.memory else buf.memory_demo).data.length < m) :
    buf.sample_from_memory s m sel wfn = .error "UnderflowError" := by
  simp only [PrioritizedDemoReplayBuffer.sample_from_memory]
  rw [if_neg (by omega)]

theorem sampled_list_spec (memory : PrioritizedBuffer) (sel : Nat → Nat)
    (wfn : ℚ → ℚ → ℚ) (m : Nat) (hm : m ≤ memory.data.length) :
    (((memory.sampleDraw sel m).entries.zip
        ((memory.sampleDraw sel m).probabilities.map
          (fun p => wfn p (memory.sampleDraw sel m).min_prob))).map
      (fun ew => setWeight ew.1.exp ew.2)).length = m ∧
    (∀ x ∈ ((memory.sampleDraw sel m).entries.zip
        ((memory.sampleDraw sel m).probabilities.map
          (fun p => wfn p (memory.sampleDraw sel m).min_prob))).map
      (fun ew => setWeight ew.1.exp ew.2),
      ∃ en ∈ memory.data, ∃ wq, x = setWeight en.exp wq) ∧
    (m = memory.data.length →
      List.Perm (((((memory.sampleDraw sel m).entries.zip
        ((memory.sampleDraw sel m).probabilities.map
          (fun p => wfn p (memory.sampleDraw sel m).min_prob))).map
        (fun ew => setWeight ew.1.exp ew.2))).map clearWeight)
        (memory.data.map (fun en => clearWeight en.exp))) := by
  have hel : (memory.sampleDraw sel m).entries.length = m :=
    sampleDraw_entries_length memory sel m hm
  have hwl : ((memory.sampleDraw sel m).probabilities.map
      (fun p => wfn p (memory.sampleDraw sel m).min_prob)).length = m := by
    rw [List.length_map, sampleDraw_probabilities_length, hel]
  refine ⟨?_, ?_, ?_⟩
  · rw [List.length_map, List.length_zip, hel, hwl]
    omega
  · intro x hx
    rcases List.mem_map.mp hx with ⟨ew, hew, hxeq⟩
    have h1 : ew.1 ∈ (memory.sampleDraw sel m).entries :=
      (List.of_mem_zip hew).1
    exact ⟨ew.1, sampleDraw_entries_mem memory sel m ew.1 h1, ew.2, hxeq.symm⟩
  · intro hfull
    have hperm := sampleDraw_entries_perm memory sel m hfull
    have h1 : ((((memory.sampleDraw sel m).entries.zip
        ((memory.sampleDraw sel m).probabilities.map
          (fun p => wfn p (memory.sampleDraw sel m).min_prob))).map
        (fun ew => setWeight ew.1.exp ew.2)).map clearWeight) =
        (memory.sampleDraw sel m).entries.map (fun en => clearWeight en.exp) := by
      rw [List.map_map]
      have h2 : (clearWeight ∘ fun ew : PoolEntry × ℚ => setWeight ew.1.exp ew.2)
          = (fun ew : PoolEntry × ℚ => clearWeight ew.1.exp) := by
        funext ew
        exact clearWeight_setWeight _ _
      rw [h2]
      have h3 : (fun ew : PoolEntry × ℚ => clearWeight ew.1.exp)
          = ((fun en : PoolEntry => clearWeight en.exp) ∘ Prod.fst) := rfl
      rw [h3, ← List.map_map, List.map_fst_zip]
      rw [hel, hwl]
    rw [h1]
    exact hperm.map (fun en => clearWeight en.exp)

theorem sfm_spec2 (buf : PrioritizedDemoReplayBuffer) (s : String) (m : Nat)
    (sel : Nat → Nat) (wfn : ℚ → ℚ → ℚ)
    (hm : m ≤ (if s = "agent" then buf.memory else buf.memory_demo).data.length) :
    ∃ res buf2, buf.sample_from_memory s m sel wfn = .ok (res, buf2) ∧
      res.length = m ∧
      (∀ x ∈ res, ∃ en ∈ (if s = "agent" then buf.memory
        else buf.memory_demo).data, ∃ wq, x = setWeight en.exp wq) ∧
      buf2.memory.data = buf.memory.data ∧
      buf2.memory_demo.data = buf.memory_demo.data ∧
      (m = (if s = "agent" then buf.memory else buf.memory_demo).data.length →
        List.Perm (res.map clearWeight)
          ((if s = "agent" then buf.memory else buf.memory_demo).data.map
            (fun en => clearWeight en.exp))) := by
  by_cases hz : m = 0
  · subst hz
    refine ⟨[], buf, sfm_eq_zero buf s sel wfn, rfl, ?_, rfl, rfl, ?_⟩
    · intro x hx
      simp at hx
    · intro h0
      have hdat : (if s = "agent" then buf.memory else buf.memory_demo).data = [] :=
        List.length_eq_zero.mp h0.symm
      rw [hdat]
      simp
  · by_cases hs : s = "agent"
    · subst hs
      rw [if_pos rfl] at hm
      have hspec := sampled_list_spec buf.memory sel wfn m hm
      exact ⟨_, _, sfm_eq_agent buf m sel wfn hm hz, hspec.1,
        by rw [if_pos rfl]; exact hspec.2.1,
        sampleDraw_pool_data buf.memory sel m, rfl,
        by rw [if_pos rfl]; intro hf; exact hspec.2.2 hf⟩
    · rw [if_neg hs] at hm
      have hspec := sampled_list_spec buf.memory_demo sel wfn m hm
      exact ⟨_, _, sfm_eq_other buf s hs m sel wfn hm hz, hspec.1,
        by rw [if_neg hs]; exact hspec.2.1,
        rfl, sampleDraw_pool_data buf.memory_demo sel m,
        by rw [if_neg hs]; intro hf; exact hspec.2.2 hf⟩

theorem sampleDual_spec (buf : PrioritizedDemoReplayBuffer) (n kdraw : Nat)
    (selA selD : Nat → Nat) (wfn : ℚ → ℚ → ℚ)
    (hd : n - min kdraw buf.memory.data.length ≤ buf.memory_demo.data.length) :
    ∃ sa sd buf3, buf.sampleDual n kdraw selA selD wfn = .ok ((sa, sd), buf3) ∧
      sa.length = min kdraw buf.memory.data.length ∧
      sd.length = n - min kdraw buf.memory.data.length ∧
      (∀ x ∈ sa, ∃ en ∈ buf.memory.data, ∃ wq, x = setWeight en.exp wq) ∧
      (∀ x ∈ sd, ∃ en ∈ buf.memory_demo.data, ∃ wq, x = setWeight en.exp wq) ∧
      buf3.memory.data = buf.memory.data ∧
      buf3.memory_demo.data = buf.memory_demo.data := by
  have hma : min kdraw buf.memory.data.length ≤
      (if ("agent" : String) = "agent" then buf.memory else buf.memory_demo).data.length := by
    rw [if_pos rfl]
    omega
  obtain ⟨sa, buf2, hA, hAlen, hAmem, hAd1, hAd2, _⟩ :=
    sfm_spec2 buf "agent" (min kdraw buf.memory.data.length) selA wfn hma
  rw [if_pos rfl] at hAmem
  have hmd : n - min kdraw buf.memory.data.length ≤
      (if ("demo" : String) = "agent" then buf2.memory else buf2.memory_demo).data.length := by
    rw [if_neg (by decide), hAd2]
    exact hd
  obtain ⟨sd, buf3, hD, hDlen, hDmem, hDd1, hDd2, _⟩ :=
    sfm_spec2 buf2 "demo" (n - min kdraw buf.memory.data.length) selD wfn hmd
  rw [if_neg (by decide), hAd2] at hDmem
  refine ⟨sa, sd, buf3, ?_, hAlen, hDlen, hAmem, hDmem,
    by rw [hDd1, hAd1], by rw [hDd2, hAd2]⟩
  unfold PrioritizedDemoReplayBuffer.sampleDual
  dsimp only
  rw [hA]
  dsimp only [Bind.bind, Except.bind]
  rw [hD]

/-- C4: `sample(n)` with `demo_only = False` on pools that can supply the
drawn counts returns two separate lists (agent-origin, demo-origin) where the
agent count is `min(k, |agent|)` for the binomial draw `k` (modelled as an
oracle over the support `0..n`), the demo count is `n` minus the agent count,
the two lengths sum to exactly `n`, the agent count never exceeds the agent
pool size, and every sampled experience carries an importance weight on its
first transition. -/
theorem C4_sample_dual (buf : PrioritizedDemoReplayBuffer) (n kdraw : Nat)
    (selA selD : Nat → Nat) (wfn : ℚ → ℚ → ℚ)
    (hk : kdraw ≤ n)
    (hd : n - min kdraw buf.memory.data.length ≤ buf.memory_demo.data.length)
    (hA : ∀ en ∈ buf.memory.data, en.exp ≠ [])
    (hD : ∀ en ∈ buf.memory_demo.data, en.exp ≠ []) :
    ∃ sa sd buf2,
      buf.sample n false kdraw selA selD wfn = .ok (.dual sa sd, buf2) ∧
      sa.length = min kdraw buf.memory.data.length ∧
      sd.length = n - sa.length ∧
      sa.length + sd.length = n ∧
      sa.length ≤ buf.memory.data.length ∧
      (∀ x ∈ sa, (nthD default x 0).weight.isSome = true) ∧
      (∀ x ∈ sd, (nthD default x 0).weight.isSome = true) := by
  obtain ⟨sa, sd, buf3, heq, hsl, hdl, hmem, hmemd, _, _⟩ :=
    sampleDual_spec buf n kdraw selA selD wfn hd
  have hwA : ∀ x ∈ sa, (nthD default x 0).weight.isSome = true := by
    intro x hx
    obtain ⟨en, hen, wq, hxsw⟩ := hmem x hx
    cases he : en.exp with
    | nil => exact absurd he (hA en hen)
    | cons t r =>
      rw [hxsw, he]
      simp [setWeight, nthD]
  have hwD : ∀ x ∈ sd, (nthD default x 0).weight.isSome = true := by
    intro x hx
    obtain ⟨en, hen, wq, hxsw⟩ := hmemd x hx
    cases he : en.exp with
    | nil => exact absurd he (hD en hen)
    | cons t r =>
      rw [hxsw, he]
      simp [setWeight, nthD]
  refine ⟨sa, sd, buf3, ?_, hsl, by rw [hdl, hsl], by rw [hdl, hsl]; omega,
    by rw [hsl]; omega, hwA, hwD⟩
  unfold PrioritizedDemoReplayBuffer.sample
  rw [if_neg (by simp)]
  rw [heq]
  dsimp only [Bind.bind, Except.bind]

/-- Witness for C4: one agent entry, three demo entries, `n = 2`, binomial
draw 1: one agent sample and one demo sample, lengths summing to 2. -/
theorem C4_sample_dual_witness :
    ∃ sa sd buf2,
      wBufC10.sample 2 false 1 wSel wSel wWfn = .ok (.dual sa sd, buf2) ∧
      sa.length = 1 ∧ sd.length = 1 ∧ sa.length + sd.length = 2 := by
  obtain ⟨sa, sd, buf2, heq, h1, h2, h3, h4, h5, h6⟩ :=
    C4_sample_dual wBufC10 2 1 wSel wSel wWfn (by decide) (by decide)
      (by decide) (by decide)
  refine ⟨sa, sd, buf2, heq, ?_, ?_, h3⟩
  · rw [h1]; decide
  · rw [h2, h1]; decide

/-- C5: for every pool (selected by `memory_str`, the agent pool for
`"agent"` and the demo pool otherwise) and every requested count `m`,
`sample_from_memory` fails with an UnderflowError exactly when `m` exceeds
that pool's current size, and is never silently truncated: within the pool
size it returns exactly `m` experiences, and when `m` equals the pool size it
returns every stored experience (as a permutation, up to the transient weight
slot).  In particular `sample(n, demo_only=True)` on a demo pool of exactly
`n` entries returns all of them, and requesting one more raises an
UnderflowError. -/
theorem C5_sample_underflow (buf : PrioritizedDemoReplayBuffer) (s : String)
    (m n kdraw : Nat) (sel selA selD : Nat → Nat) (wfn : ℚ → ℚ → ℚ) :
    ((if s = "agent" then buf.memory else buf.memory_demo).data.length < m →
      buf.sample_from_memory s m sel wfn = .error "UnderflowError") ∧
    (m ≤ (if s = "agent" then buf.memory else buf.memory_demo).data.length →
      ∃ res buf2, buf.sample_from_memory s m sel wfn = .ok (res, buf2) ∧
        res.length = m ∧
        (m = (if s = "agent" then buf.memory
            else buf.memory_demo).data.length →
          List.Perm (res.map clearWeight)
            ((if s = "agent" then buf.memory
              else buf.memory_demo).data.map
              (fun en => clearWeight en.exp)))) ∧
    (buf.memory_demo.data.length < n →
      buf.sample n true kdraw selA selD wfn = .error "UnderflowError") ∧
    (n ≤ buf.memory_demo.data.length →
      ∃ sd buf2, buf.sample n true kdraw selA selD wfn =
          .ok (.demoOnly sd, buf2) ∧
        sd.length = n ∧
        (n = buf.memory_demo.data.length →
          List.Perm (sd.map clearWeight)
            (buf.memory_demo.data.map (fun en => clearWeight en.exp)))) := by
  refine ⟨?_, ?_, ?_, ?_⟩
  · intro hlt
    exact sfm_eq_underflow buf s m sel wfn hlt
  · intro hle
    obtain ⟨res, buf2, heq, hlen, _, _, _, hperm⟩ :=
      sfm_spec2 buf s m sel wfn hle
    exact ⟨res, buf2, heq, hlen, hperm⟩
  · intro hlt
    have hu := sfm_eq_underflow buf "demo" n selD wfn
      (by rw [if_neg (by decide)]; exact hlt)
    unfold PrioritizedDemoReplayBuffer.sample
      PrioritizedDemoReplayBuffer.sampleDemoOnly
    rw [if_pos rfl, hu]
    dsimp only [Bind.bind, Except.bind]
  · intro hle
    obtain ⟨sd, buf2, heq, hlen, _, _, _, hperm⟩ :=
      sfm_spec2 buf "demo" n selD wfn (by rw [if_neg (by decide)]; exact hle)
    rw [if_neg (by decide)] at hperm
    refine ⟨sd, buf2, ?_, hlen, hperm⟩
    unfold PrioritizedDemoReplayBuffer.sample
      PrioritizedDemoReplayBuffer.sampleDemoOnly
    rw [if_pos rfl, heq]
    dsimp only [Bind.bind, Except.bind]

/-- Witness for C5 on both pools: the agent pool with exactly 2 entries
returns all 2 on `sample_from_memory("agent", 2)` and raises UnderflowError
on a 3rd; a demo pool with exactly 4 entries returns all 4 on
`sample(4, demo_only=True)` and raises UnderflowError on a 5th. -/
theorem C5_sample_underflow_witness :
    wBufC7.sample_from_memory "agent" 3 wSel wWfn = .error "UnderflowError" ∧
    (∃ res buf2, wBufC7.sample_from_memory "agent" 2 wSel wWfn =
        .ok (res, buf2) ∧
      res.length = 2 ∧
      List.Perm (res.map clearWeight)
        (wBufC7.memory.data.map (fun en => clearWeight en.exp))) ∧
    wBufC5.sample 5 true 0 wSel wSel wWfn = .error "UnderflowError" ∧
    (∃ sd buf2, wBufC5.sample 4 true 0 wSel wSel wWfn =
        .ok (.demoOnly sd, buf2) ∧
      sd.length = 4 ∧
      List.Perm (sd.map clearWeight)
        (wBufC5.memory_demo.data.map (fun en => clearWeight en.exp))) := by
  refine ⟨?_, ?_, ?_, ?_⟩
  · exact (C5_sample_underflow wBufC7 "agent" 3 0 0 wSel wSel wSel wWfn).1
      (by decide)
  · obtain ⟨res, buf2, heq, hlen, hperm⟩ :=
      (C5_sample_underflow wBufC7 "agent" 2 0 0 wSel wSel wSel wWfn).2.1
        (by decide)
    have hp := hperm (by decide)
    rw [if_pos rfl] at hp
    exact ⟨res, buf2, heq, hlen, hp⟩
  · exact (C5_sample_underflow wBufC5 "demo" 0 5 0 wSel wSel wSel wWfn).2.2.1
      (by decide)
  · obtain ⟨sd, buf2, heq, hlen, hperm⟩ :=
      (C5_sample_underflow wBufC5 "demo" 0 4 0 wSel wSel wSel wWfn).2.2.2
        (by decide)
    exact ⟨sd, buf2, heq, hlen, hperm (by decide)⟩

/-- C6 fails on the code: with a non-empty demo pool and `demo_only = False`,
a binomial draw of `k = n` with at least `n` agent-pool entries yields an
empty demo-origin sublist — `sample` does not always draw from both pools —
and the supervised-loss normalization of `DQfD.update` then performs a
division whose divisor `len(experiences_demo)` is zero (no guard). -/
theorem C6_counterexample :
    wBufC6.memory_demo.data ≠ [] ∧
    demoPart (wBufC6.sample 2 false 2 wSel wSel wWfn) = some [] ∧
    supervisedDivisor "mean" [] = some 0 :=
  ⟨by decide, by decide, by decide⟩

/-- C6 (amended): during steady play the demo-origin count equals
`n - min(k, |agent|)`, so the demo sublist is empty exactly when the binomial
draw `k` reaches `n` and the agent pool holds at least `n` entries; the
supervised-loss step divides by the demo sublist's length exactly when
`batch_accumulator = "mean"`, so its divisor is zero (division by zero,
no guard) precisely when that happens with an empty demo sublist. -/
theorem C6_amended_div_by_zero (buf : PrioritizedDemoReplayBuffer)
    (n kdraw : Nat) (selA selD : Nat → Nat) (wfn : ℚ → ℚ → ℚ) (acc : String)
    (hk : kdraw ≤ n)
    (hd : n - min kdraw buf.memory.data.length ≤ buf.memory_demo.data.length) :
    ∃ sa sd buf2,
      buf.sample n false kdraw selA selD wfn = .ok (.dual sa sd, buf2) ∧
      sd.length = n - min kdraw buf.memory.data.length ∧
      (sd = [] ↔ (kdraw = n ∧ n ≤ buf.memory.data.length)) ∧
      (supervisedDivisor acc sd = some 0 ↔ (acc = "mean" ∧ sd = [])) := by
  obtain ⟨sa, sd, buf3, heq, hsl, hdl, _, _, _, _⟩ :=
    sampleDual_spec buf n kdraw selA selD wfn hd
  have hempty : sd = [] ↔ (kdraw = n ∧ n ≤ buf.memory.data.length) := by
    constructor
    · intro h0
      have : sd.length = 0 := by rw [h0]; rfl
      rw [hdl] at this
      omega
    · intro ⟨h1, h2⟩
      have : sd.length = 0 := by rw [hdl]; omega
      exact List.length_eq_zero.mp this
  refine ⟨sa, sd, buf3, ?_, hdl, hempty, ?_⟩
  · unfold PrioritizedDemoReplayBuffer.sample
    rw [if_neg (by simp), heq]
    dsimp only [Bind.bind, Except.bind]
  · unfold supervisedDivisor
    by_cases hacc : acc = "mean"
    · rw [if_pos hacc]
      simp only [Option.some.injEq, hacc, true_and]
      rw [List.length_eq_zero]
    · rw [if_neg hacc]
      simp [hacc]

/-- Witness for the amended C6 at the concrete counterexample input. -/
theorem C6_amended_div_by_zero_witness :
    ∃ sa sd buf2,
      wBufC6.sample 2 false 2 wSel wSel wWfn = .ok (.dual sa sd, buf2) ∧
      sd = [] ∧ supervisedDivisor "mean" sd = some 0 := by
  obtain ⟨sa, sd, buf2, heq, hlen, hiff, hdiv⟩ :=
    C6_amended_div_by_zero wBufC6 2 2 wSel wSel wWfn "mean" (by decide)
      (by decide)
  have hsd : sd = [] := hiff.mpr ⟨rfl, by decide⟩
  exact ⟨sa, sd, buf2, heq, hsd, hdiv.mpr ⟨rfl, hsd⟩⟩

theorem setPriorityAt_pos (data : List PoolEntry) (i : Nat) (p : ℚ)
    (hdata : ∀ en ∈ data, 0 < en.priority) (hp : 0 < p) :
    ∀ en ∈ setPriorityAt data i p, 0 < en.priority := by
  intro en hen
  unfold setPriorityAt at hen
  cases hget : data.get? i with
  | none => rw [hget] at hen; exact hdata en hen
  | some en0 =>
    rw [hget] at hen
    rcases mem_set_or data i { en0 with priority := p } en hen with h | h
    · exact hdata en h
    · rw [h]; exact hp

theorem foldl_setPriority_pos :
    ∀ (pairs : List (Nat × ℚ)) (data : List PoolEntry),
      (∀ en ∈ data, 0 < en.priority) → (∀ ip ∈ pairs, 0 < ip.2) →
      ∀ en ∈ pairs.foldl (fun d ip => setPriorityAt d ip.1 ip.2) data,
        0 < en.priority := by
  intro pairs
  induction pairs with
  | nil => intro data hdata _ en hen; exact hdata en hen
  | cons ip rest ih =>
    intro data hdata hp en hen
    simp only [List.foldl_cons] at hen
    exact ih (setPriorityAt data ip.1 ip.2)
      (setPriorityAt_pos data ip.1 ip.2 hdata
        (hp ip (List.mem_cons_self ip rest)))
      (fun q hq => hp q (List.mem_cons_of_mem ip hq)) en hen

theorem set_last_priority_pos (b : PrioritizedBuffer) (ps : List ℚ)
    (hb : ∀ en ∈ b.data, 0 < en.priority) (hp : ∀ p ∈ ps, 0 < p) :
    ∀ en ∈ (b.set_last_priority ps).data, 0 < en.priority := by
  intro en hen
  unfold PrioritizedBuffer.set_last_priority at hen
  dsimp only at hen
  exact foldl_setPriority_pos (b.lastSampled.zip ps) b.data hb
    (fun ip hip => hp ip.2 (List.of_mem_zip hip).2) en hen

theorem priority_from_errors_pos (powA : ℚ → ℚ) (eps : ℚ)
    (hpow : ∀ x : ℚ, 0 < x → 0 < powA x) (heps : 0 < eps)
    (errors : List ℚ) :
    ∀ p ∈ priority_from_errors powA eps errors, 0 < p := by
  intro p hp
  rcases List.mem_map.mp hp with ⟨e, _, hpe⟩
  have habs : (0 : ℚ) ≤ |e| := abs_nonneg e
  exact hpe ▸ hpow (|e| + eps) (by linarith)

/-- C7: every priority written to either pool by `update_errors` is strictly
positive — for arbitrary non-negative error vectors, via the modelled
`(|error| + eps)^alpha` transform with `eps = 0.01 > 0` and any
positivity-preserving power — positivity of all stored priorities is
preserved, and an empty `errors_agent` (resp. `errors_demo`) list leaves the
agent (resp. demo) pool entirely unchanged. -/
theorem C7_update_errors_positive (buf : PrioritizedDemoReplayBuffer)
    (powA : ℚ → ℚ) (errors_agent errors_demo : List ℚ)
    (hpow : ∀ x : ℚ, 0 < x → 0 < powA x)
    (heps : 0 < buf.eps)
    (hea : ∀ e ∈ errors_agent, 0 ≤ e) (hed : ∀ e ∈ errors_demo, 0 ≤ e)
    (hA : ∀ en ∈ buf.memory.data, 0 < en.priority)
    (hD : ∀ en ∈ buf.memory_demo.data, 0 < en.priority) :
    (∀ p ∈ priority_from_errors powA buf.eps errors_agent, 0 < p) ∧
    (∀ p ∈ priority_from_errors powA buf.eps errors_demo, 0 < p) ∧
    (∀ en ∈ (buf.update_errors powA errors_agent errors_demo).memory.data,
      0 < en.priority) ∧
    (∀ en ∈ (buf.update_errors powA errors_agent errors_demo).memory_demo.data,
      0 < en.priority) ∧
    (errors_agent = [] →
      (buf.update_errors powA errors_agent errors_demo).memory = buf.memory) ∧
    (errors_demo = [] →
      (buf.update_errors powA errors_agent errors_demo).memory_demo
        = buf.memory_demo) := by
  have hppos := priority_from_errors_pos powA buf.eps hpow heps
  have hmem_eq : (buf.update_errors powA errors_agent errors_demo).memory =
      (if 0 < errors_agent.length then
        buf.memory.set_last_priority
          (priority_from_errors powA buf.eps errors_agent)
      else buf.memory) := by
    unfold PrioritizedDemoReplayBuffer.update_errors
    dsimp only
    by_cases hde : 0 < errors_demo.length <;>
      by_cases hag : 0 < errors_agent.length <;>
      simp [hde, hag]
  have hdemo_eq : (buf.update_errors powA errors_agent errors_demo).memory_demo =
      (if 0 < errors_demo.length then
        buf.memory_demo.set_last_priority
          (priority_from_errors powA buf.eps errors_demo)
      else buf.memory_demo) := by
    unfold PrioritizedDemoReplayBuffer.update_errors
    dsimp only
    by_cases hde : 0 < errors_demo.length <;>
      by_cases hag : 0 < errors_agent.length <;>
      simp [hde, hag]
  refine ⟨hppos errors_agent, hppos errors_demo, ?_, ?_, ?_, ?_⟩
  · rw [hmem_eq]
    by_cases hag : 0 < errors_agent.length
    · rw [if_pos hag]
      exact set_last_priority_pos buf.memory _ hA (hppos errors_agent)
    · rw [if_neg hag]
      exact hA
  · rw [hdemo_eq]
    by_cases hde : 0 < errors_demo.length
    · rw [if_pos hde]
      exact set_last_priority_pos buf.memory_demo _ hD (hppos errors_demo)
    · rw [if_neg hde]
      exact hD
  · intro h0
    rw [hmem_eq, if_neg (by rw [h0]; simp)]
  · intro h0
    rw [hdemo_eq, if_neg (by rw [h0]; simp)]

/-- Witness for C7: all-zero error vectors (with bonuses already folded in as
in `DQfD.update`) on pools with tracked last-sampled batches still leave all
priorities strictly positive, with `powA` instantiated by the identity (which
preserves strict positivity, as `(·)^0.6` does). -/
theorem C7_update_errors_positive_witness :
    (∀ en ∈ (wBufC7.update_errors (fun x => x) [0] [0, 0]).memory.data,
      0 < en.priority) ∧
    (∀ en ∈ (wBufC7.update_errors (fun x => x) [0] [0, 0]).memory_demo.data,
      0 < en.priority) := by
  have h := C7_update_errors_positive wBufC7 (fun x => x) [0] [0, 0]
    (fun x hx => hx) (by norm_num [wBufC7, mkBuf]) (by decide) (by decide)
    (by decide) (by decide)
  exact ⟨h.2.2.1, h.2.2.2.1⟩

theorem runUpdates_spec (u : DemoReplayUpdater) (hu : u.episodic_update = false)
    (ks : Nat → Nat) (selA selD : Nat → Nat → Nat) (wfn : ℚ → ℚ → ℚ) :
    ∀ (count : Nat) (buf : PrioritizedDemoReplayBuffer),
      (∀ i, u.batchsize - min (ks i) buf.memory.data.length ≤
        buf.memory_demo.data.length) →
      (∀ i, ks i ≤ u.batchsize) →
      ∃ calls buf2, runUpdates u ks selA selD wfn buf count = .ok (calls, buf2) ∧
        calls.length = count ∧
        buf2.memory.data = buf.memory.data ∧
        buf2.memory_demo.data = buf.memory_demo.data ∧
        (∀ c ∈ calls, c.1.length + c.2.length = u.batchsize ∧
          c.1.length ≤ buf.memory.data.length) := by
  intro count
  induction count with
  | zero =>
    intro buf hsup hk
    exact ⟨[], buf, rfl, rfl, rfl, rfl, by intro c hc; simp at hc⟩
  | succ i ih =>
    intro buf hsup hk
    obtain ⟨sa, sd, buf3, heqD, hsal, hsdl, _, _, hd1, hd2⟩ :=
      sampleDual_spec buf u.batchsize (ks i) (selA i) (selD i) wfn (hsup i)
    have hsup3 : ∀ j, u.batchsize - min (ks j) buf3.memory.data.length ≤
        buf3.memory_demo.data.length := by
      intro j
      rw [hd1, hd2]
      exact hsup j
    obtain ⟨calls, buf4, heqR, hcl, hc1, hc2, hcall⟩ := ih buf3 hsup3 hk
    refine ⟨(sa, sd) :: calls, buf4, ?_, by simp [hcl], by rw [hc1, hd1],
      by rw [hc2, hd2], ?_⟩
    · show runUpdates u ks selA selD wfn buf (i + 1) = _
      unfold runUpdates
      rw [hu]
      rw [if_neg (by simp)]
      rw [heqD]
      dsimp only [Bind.bind, Except.bind]
      rw [heqR]
    · intro c hc
      rcases List.mem_cons.mp hc with hc | hc
      · subst hc
        constructor
        · simp only [hsal, hsdl]
          have := hk i
          omega
        · simp only [hsal]
          omega
      · have h2 := hcall c hc
        rw [hd1] at h2
        exact h2

/-- C10: constructing `DemoReplayUpdater` with a batch size above
`replay_start_size` fails at construction (ConfigurationError); afterwards
(non-episodic mode) `update_if_necessary` checks its gates in order and skips
without raising when the total buffer length is below `replay_start_size` or
the step counter is not divisible by `update_interval`, and otherwise invokes
the update function exactly `n_times_update` times, each call carrying a
freshly drawn dual sample whose two lists' lengths sum to `batchsize`. -/
theorem C10_updater (batchsize n_times rss ui : Nat)
    (buf : PrioritizedDemoReplayBuffer) (iteration n_episodes : Nat)
    (ks : Nat → Nat) (selA selD : Nat → Nat → Nat) (wfn : ℚ → ℚ → ℚ)
    (hsup : ∀ i, batchsize - min (ks i) buf.memory.data.length ≤
      buf.memory_demo.data.length)
    (hk : ∀ i, ks i ≤ batchsize) :
    (rss < batchsize →
      DemoReplayUpdater.init batchsize false n_times rss ui =
        .error "ConfigurationError") ∧
    (batchsize ≤ rss →
      ∃ u, DemoReplayUpdater.init batchsize false n_times rss ui = .ok u ∧
        (buf.len < rss →
          u.update_if_necessary buf iteration n_episodes ks selA selD wfn =
            .ok ([], buf)) ∧
        (iteration % ui ≠ 0 →
          u.update_if_necessary buf iteration n_episodes ks selA selD wfn =
            .ok ([], buf)) ∧
        (rss ≤ buf.len → iteration % ui = 0 →
          ∃ calls buf2,
            u.update_if_necessary buf iteration n_episodes ks selA selD wfn =
              .ok (calls, buf2) ∧
            calls.length = n_times ∧
            (∀ c ∈ calls, c.1.length + c.2.length = batchsize))) := by
  constructor
  · intro hlt
    unfold DemoReplayUpdater.init
    rw [if_neg (by omega)]
  · intro hle
    refine ⟨⟨batchsize, false, n_times, rss, ui⟩, ?_, ?_, ?_, ?_⟩
    · unfold DemoReplayUpdater.init
      rw [if_pos hle]
    · intro hlen
      unfold DemoReplayUpdater.update_if_necessary
      rw [if_pos hlen]
    · intro hmod
      unfold DemoReplayUpdater.update_if_necessary
      by_cases hlen : buf.len < rss
      · rw [if_pos hlen]
      · rw [if_neg hlen, if_neg (by simp), if_pos hmod]
    · intro hge hmod
      unfold DemoReplayUpdater.update_if_necessary
      rw [if_neg (show ¬(buf.len < rss) by omega), if_neg (by simp),
        if_neg (by simp [hmod])]
      obtain ⟨calls, buf2, heq, hcl, _, _, hcall⟩ :=
        runUpdates_spec ⟨batchsize, false, n_times, rss, ui⟩ rfl ks selA selD
          wfn n_times buf hsup hk
      exact ⟨calls, buf2, heq, hcl, fun c hc => (hcall c hc).1⟩

/-- Witness for C10: `batchsize = 3 > replay_start_size = 2` fails at
construction; a valid updater with `batchsize = 2`, two updates per firing,
on a buffer of total length 4 at a divisible iteration, fires exactly twice
with each call's two lists summing to the batch size. -/
theorem C10_updater_witness :
    DemoReplayUpdater.init 3 false 1 2 1 = .error "ConfigurationError" ∧
    ∃ u, DemoReplayUpdater.init 2 false 2 2 1 = .ok u ∧
    ∃ calls buf2,
      u.update_if_necessary wBufC10 4 0 (fun _ => 1) wSel2 wSel2 wWfn =
        .ok (calls, buf2) ∧
      calls.length = 2 ∧ ∀ c ∈ calls, c.1.length + c.2.length = 2 := by
  constructor
  · exact (C10_updater 3 1 2 1 wBufC10 4 0 (fun _ => 1) wSel2 wSel2 wWfn
      (fun i => (by decide : 3 - min 1 wBufC10.memory.data.length ≤
        wBufC10.memory_demo.data.length))
      (fun i => (by decide : 1 ≤ 3))).1 (by decide)
  · obtain ⟨u, hinit, hg1, hg2, hfull⟩ :=
      (C10_updater 2 2 2 1 wBufC10 4 0 (fun _ => 1) wSel2 wSel2 wWfn
        (fun i => (by decide : 2 - min 1 wBufC10.memory.data.length ≤
          wBufC10.memory_demo.data.length))
        (fun i => (by decide : 1 ≤ 2))).2 (by decide)
    obtain ⟨calls, buf2, heq, hcl, hcall⟩ := hfull (by decide) (by decide)
    exact ⟨u, hinit, calls, buf2, heq, hcl, hcall⟩
